import Mathlib

/-!
Verification of the position/lot accounting engine of the `options` portfolio
tracker.  Go `float64` arithmetic is modelled by exact rationals (`ℚ`); Go maps
are modelled by association lists kept in insertion order, and where a result
can depend on Go's unspecified map-iteration order that order is surfaced as an
explicit parameter.  Date strings are compared byte-wise exactly as Go compares
strings, and `time.Parse("2006-01-02", ·)` is modelled by an executable
Gregorian parser returning a day number.
-/

namespace OptionsPortfolio

/-- `web.StockTransaction` (src/web/analytics.go). The CSV-loading layer is out
of scope; a transaction list is taken as input, as the engine receives it. -/
structure StockTransaction where
  Date : String
  Type' : String
  Symbol : String
  Shares : ℚ
  Price : ℚ
  Amount : ℚ
  Commission : ℚ
deriving DecidableEq

/-- `web.Lot` (src/web/analytics.go). -/
structure Lot where
  Date : String
  Shares : ℚ
  Price : ℚ
  CostBasis : ℚ
deriving DecidableEq

/-- `web.Position` (src/web/analytics.go). -/
structure Position where
  Symbol : String
  Type' : String
  Shares : ℚ
  AvgBuyPrice : ℚ
  AvgSellPrice : ℚ
  CostBasis : ℚ
  SaleProceeds : ℚ
  RealizedPnL : ℚ
  ReturnPerc : ℚ
  OpenDate : String
  CloseDate : String
  CurrentPrice : ℚ
  MarketValue : ℚ
  UnrealizedPnL : ℚ
  UnrealizedPerc : ℚ
deriving DecidableEq

/-- The Go zero value of `web.Position`; struct literals leave omitted fields
at their zero values. -/
def zeroPos : Position :=
  ⟨"", "", 0, 0, 0, 0, 0, 0, 0, "", "", 0, 0, 0, 0⟩

/-- The `symbolLots` map of `CalculateAllPositions`, as an association list in
insertion order. -/
abbrev SymbolLots := List (String × List Lot)

/-- Reading `symbolLots[sym]`; a missing key reads as the zero value `nil`. -/
def getLots : SymbolLots → String → List Lot
  | [], _ => []
  | (k, v) :: rest, s => if k = s then v else getLots rest s

/-- Map assignment `symbolLots[sym] = lots`: replace the binding, or insert a
fresh one for a previously unseen key. -/
def setLots : SymbolLots → String → List Lot → SymbolLots
  | [], s, v => [(s, v)]
  | (k, w) :: rest, s, v => if k = s then (k, v) :: rest else (k, w) :: setLots rest s v

/-- The Sell branch's loop over the symbol's lots (src/web/analytics.go,
lines 717–745): returns `(closedLots, newLots, totalCostBasisSold)`. -/
def sellFold : List Lot → ℚ → List Lot × List Lot × ℚ
  | [], _ => ([], [], 0)
  | lot :: rest, remaining =>
    if remaining ≤ 0 then
      let r := sellFold rest remaining
      (r.1, lot :: r.2.1, r.2.2)
    else if lot.Shares ≤ remaining then
      let r := sellFold rest (remaining - lot.Shares)
      (lot :: r.1, r.2.1, lot.CostBasis + r.2.2)
    else
      let costBasisFraction := lot.CostBasis * (remaining / lot.Shares)
      let closedLot : Lot := ⟨lot.Date, remaining, lot.Price, costBasisFraction⟩
      let newLot : Lot :=
        { lot with Shares := lot.Shares - remaining, CostBasis := lot.CostBasis - costBasisFraction }
      let r := sellFold rest 0
      (closedLot :: r.1, newLot :: r.2.1, costBasisFraction + r.2.2)

/-- `totalShares` accumulation over a list of lots. -/
def lotsShares (l : List Lot) : ℚ := (l.map (·.Shares)).sum

/-- `totalCostBasis` accumulation over a list of lots. -/
def lotsCost (l : List Lot) : ℚ := (l.map (·.CostBasis)).sum

/-- `avgBuyPrice` numerator: share-weighted price sum. -/
def lotsWeighted (l : List Lot) : ℚ := (l.map (fun x => x.Price * x.Shares)).sum

/-- The `if lot.Date < openDate` minimum fold, seeded with the first lot's date. -/
def minDateFrom (d : String) (l : List Lot) : String :=
  l.foldl (fun acc x => if x.Date < acc then x.Date else acc) d

/-- Intermediate state of `CalculateAllPositions`'s transaction loop: the
per-symbol open lots and the closed positions emitted so far. -/
structure EngineState where
  lots : SymbolLots
  closed : List Position
deriving DecidableEq

/-- The closed `Position` a Sell emits from its consumed lots `cl` (headed by
`c0`) and their total cost basis `cbs` (src/web/analytics.go, lines 749–783). -/
def closedPosOf (tx : StockTransaction) (c0 : Lot) (cl : List Lot) (cbs : ℚ) : Position :=
  { zeroPos with
    Symbol := tx.Symbol, Type' := "closed", Shares := lotsShares cl,
    AvgBuyPrice := lotsWeighted cl / lotsShares cl, AvgSellPrice := tx.Price,
    CostBasis := cbs, SaleProceeds := tx.Amount - tx.Commission,
    RealizedPnL := tx.Amount - tx.Commission - cbs,
    ReturnPerc := if 0 < cbs then (tx.Amount - tx.Commission - cbs) / cbs * 100 else 0,
    OpenDate := minDateFrom c0.Date cl, CloseDate := tx.Date }

/-- One iteration of the transaction loop of `CalculateAllPositions`
(src/web/analytics.go, lines 698–785). -/
def processStockTx (st : EngineState) (tx : StockTransaction) : EngineState :=
  if tx.Type' = "Buy" then
    let lot : Lot := ⟨tx.Date, tx.Shares, tx.Price, tx.Amount + tx.Commission⟩
    { st with lots := setLots st.lots tx.Symbol (getLots st.lots tx.Symbol ++ [lot]) }
  else if tx.Type' = "Sell" then
    let r := sellFold (getLots st.lots tx.Symbol) tx.Shares
    let lots' := setLots st.lots tx.Symbol r.2.1
    match r.1 with
    | [] => { st with lots := lots' }
    | c0 :: tl => { lots := lots', closed := st.closed ++ [closedPosOf tx c0 (c0 :: tl) r.2.2] }
  else st

/-- Run the whole transaction loop from the empty state. -/
def runStockTxs (txs : List StockTransaction) : EngineState :=
  txs.foldl processStockTx ⟨[], []⟩

/-- The current-price map (`stockPrices`), missing symbols reading as 0. -/
def priceOf : List (String × ℚ) → String → ℚ
  | [], _ => 0
  | (k, v) :: rest, s => if k = s then v else priceOf rest s

/-- The open-position emission for one `symbolLots` binding
(src/web/analytics.go, lines 787–829). -/
def mkOpenPos (prices : List (String × ℚ)) (e : String × List Lot) : Option Position :=
  match e.2 with
  | [] => none
  | l0 :: _ =>
    let totalShares := lotsShares e.2
    let totalCostBasis := lotsCost e.2
    if 0 < totalShares then
      let currentPrice := priceOf prices e.1
      let marketValue := currentPrice * totalShares
      let unrealizedPnL := marketValue - totalCostBasis
      let unrealizedPerc := if 0 < totalCostBasis then unrealizedPnL / totalCostBasis * 100 else 0
      some { zeroPos with
        Symbol := e.1, Type' := "open", Shares := totalShares,
        AvgBuyPrice := totalCostBasis / totalShares, CostBasis := totalCostBasis,
        OpenDate := minDateFrom l0.Date e.2, CurrentPrice := currentPrice,
        MarketValue := marketValue, UnrealizedPnL := unrealizedPnL,
        UnrealizedPerc := unrealizedPerc }
    else none

/-- Emission of open positions over the bindings of `symbolLots` in a given
enumeration order (Go iterates the map in unspecified order; `order` makes
that order explicit). -/
def opensOverKeys (m : SymbolLots) (prices : List (String × ℚ)) (order : List String) :
    List Position :=
  order.filterMap (fun s => mkOpenPos prices (s, getLots m s))

/-- Canonical open-position emission: iterate the association list itself
(insertion order). -/
def opensOf (m : SymbolLots) (prices : List (String × ℚ)) : List Position :=
  m.filterMap (mkOpenPos prices)

/-- The comparator passed to `sort.Slice` (src/web/analytics.go,
lines 831–839), as a boolean "strictly before" test. -/
def posLtb (p q : Position) : Bool :=
  if p.Symbol ≠ q.Symbol then decide (p.Symbol < q.Symbol)
  else if p.Type' ≠ q.Type' then decide (p.Type' = "open")
  else decide (p.OpenDate < q.OpenDate)

/-- The non-strict order that `sort.Slice`'s postcondition is stated in:
`p` need not come after `q`. -/
def posLE (p q : Position) : Prop := posLtb q p = false

instance : DecidableRel posLE := fun p q => inferInstanceAs (Decidable (posLtb q p = false))

/-- `CalculateAllPositions` (src/web/analytics.go, lines 694–842), with the
open positions emitted in canonical (insertion) order and the final sort one
fixed outcome consistent with `sort.Slice`'s postcondition (the stable
insertion sort).  Claims whose conclusions do not depend on the relative
order of comparator-tied elements use this function; the tie order that the
unstable `sort.Slice` leaves unspecified is modelled relationally by
`calcAllPositionsRel`. -/
def CalculateAllPositions (txs : List StockTransaction) (prices : List (String × ℚ)) :
    List Position :=
  let st := runStockTxs txs
  List.insertionSort posLE (st.closed ++ opensOf st.lots prices)

/-- The postcondition of Go's `sort.Slice` (src/web/analytics.go, line 831),
an unstable sort: the slice afterwards is a permutation of the slice before,
ordered so that no element is strictly less (under the comparator) than an
element left of it; the relative order of tied elements is unspecified. -/
def sortSliceSpec (inp out : List Position) : Prop :=
  inp.Perm out ∧ List.Sorted posLE out

instance (inp out : List Position) : Decidable (sortSliceSpec inp out) := by
  unfold sortSliceSpec List.Sorted
  infer_instance

/-- The output relation of `CalculateAllPositions` with both pieces Go leaves
unspecified made explicit: `order` is the map-iteration order of the
open-position emission, and the final sort may be any outcome `sort.Slice`
permits on the emitted list. -/
def calcAllPositionsRel (txs : List StockTransaction) (prices : List (String × ℚ))
    (order : List String) (out : List Position) : Prop :=
  sortSliceSpec ((runStockTxs txs).closed ++ opensOverKeys (runStockTxs txs).lots prices order) out

instance (txs : List StockTransaction) (prices : List (String × ℚ))
    (order : List String) (out : List Position) :
    Decidable (calcAllPositionsRel txs prices order out) := by
  unfold calcAllPositionsRel
  infer_instance

/-! ## Dates

`time.Parse("2006-01-02", s)` yields midnight UTC of a validated Gregorian
date.  We model a parsed date by its civil day number (days since 1970-01-01),
so that `t2.Sub(t1).Hours()/24` is exactly the day-number difference (both
times are midnights, and the quotient is exact in `float64` for realistic
magnitudes). -/

/-- Go leap-year rule (`time.isLeap`). -/
def isLeapYear (y : ℤ) : Bool := y % 4 = 0 ∧ (y % 100 ≠ 0 ∨ y % 400 = 0)

/-- Length of month `m` in year `y`, as validated by `time.Parse`. -/
def daysInMonth (y : ℤ) (m : ℤ) : ℤ :=
  if m = 2 then (if isLeapYear y then 29 else 28)
  else if m = 4 ∨ m = 6 ∨ m = 9 ∨ m = 11 then 30
  else 31

/-- Civil day number of year/month/day (days since 1970-01-01), the standard
days-from-civil computation. -/
def daysFromCivil (y m d : ℤ) : ℤ :=
  let y' := if m ≤ 2 then y - 1 else y
  let era := Int.fdiv y' 400
  let yoe := y' - era * 400
  let mp := (m + 9) % 12
  let doy := Int.fdiv (153 * mp + 2) 5 + d - 1
  let doe := yoe * 365 + Int.fdiv yoe 4 - Int.fdiv yoe 100 + doy
  era * 146097 + doe - 719468

/-- Numeric value of a decimal digit character. -/
def digitVal (c : Char) : ℤ := (c.toNat : ℤ) - ('0'.toNat : ℤ)

/-- `time.Parse("2006-01-02", s)`: exactly `YYYY-MM-DD` with range-checked
month and day; `none` models a parse error. -/
def parseDate (s : String) : Option ℤ :=
  match s.data with
  | [y1, y2, y3, y4, '-', m1, m2, '-', d1, d2] =>
    if (y1.isDigit ∧ y2.isDigit ∧ y3.isDigit ∧ y4.isDigit ∧
        m1.isDigit ∧ m2.isDigit ∧ d1.isDigit ∧ d2.isDigit) then
      let y := 1000 * digitVal y1 + 100 * digitVal y2 + 10 * digitVal y3 + digitVal y4
      let m := 10 * digitVal m1 + digitVal m2
      let d := 10 * digitVal d1 + digitVal d2
      if 1 ≤ m ∧ m ≤ 12 ∧ 1 ≤ d ∧ d ≤ daysInMonth y m then
        some (daysFromCivil y m d)
      else none
    else none
  | _ => none

/-- Day number of Go's zero `time.Time` (January 1, year 1). -/
def zeroTimeDays : ℤ := daysFromCivil 1 1 1

/-- Parse with Go's ignored-error convention: a failed parse leaves the zero
`time.Time` (the code discards the error with `_`). -/
def parseDateD (s : String) : ℤ := (parseDate s).getD zeroTimeDays

/-! ## Option position aggregation (src/web/options_transactions.go) -/

/-- `web.OptionTransaction`. -/
structure OptionTransaction where
  Date : String
  Action : String
  Symbol : String
  OptionType : String
  Strike : ℚ
  Expiry : String
  Contracts : ℤ
  Premium : ℚ
  StockPrice : ℚ
  Commission : ℚ
  PositionID : String
  Notes : String
deriving DecidableEq

/-- `web.OptionPosition`. -/
structure OptionPosition where
  PositionID : String
  Symbol : String
  OptionType : String
  Strike : ℚ
  Expiry : String
  Contracts : ℤ
  Status : String
  OpenDate : String
  CloseDate : String
  PremiumCollected : ℚ
  PremiumPaid : ℚ
  NetPremium : ℚ
  Commissions : ℚ
  MaxProfit : ℚ
  DaysHeld : ℤ
  DaysToExpiry : ℤ
  AnnualizedReturn : ℚ
  PercentReturn : ℚ
  Capital : ℚ
deriving DecidableEq

/-- The lots-only replay shared by `CalculateAllPositions` and
`calculateStockCostBasisAtDate` (the sell branch keeps `newLots` and drops the
closed-lot bookkeeping). -/
def stepLots (m : SymbolLots) (tx : StockTransaction) : SymbolLots :=
  if tx.Type' = "Buy" then
    setLots m tx.Symbol (getLots m tx.Symbol ++ [⟨tx.Date, tx.Shares, tx.Price, tx.Amount + tx.Commission⟩])
  else if tx.Type' = "Sell" then
    setLots m tx.Symbol (sellFold (getLots m tx.Symbol) tx.Shares).2.1
  else m

/-- `calculateStockCostBasisAtDate` (src/web/options_transactions.go,
lines 241–306): average cost basis per share of the current FIFO holdings. -/
def calculateStockCostBasisAtDate (txs : List StockTransaction) : List (String × ℚ) :=
  (txs.foldl stepLots []).filterMap (fun e =>
    match e.2 with
    | [] => none
    | _ :: _ =>
      let totalShares := lotsShares e.2
      if 0 < totalShares then some (e.1, lotsCost e.2 / totalShares) else none)

/-- Lookup in the cost-basis map, with the `exists` test of the Go map read. -/
def cbLookup : List (String × ℚ) → String → Option ℚ
  | [], _ => none
  | (k, v) :: rest, s => if k = s then some v else cbLookup rest s

/-- `h = p` head test for character lists. -/
def startsWithChars : List Char → List Char → Bool
  | _, [] => true
  | [], _ :: _ => false
  | h :: hs, p :: ps => if h = p then startsWithChars hs ps else false

/-- `strings.Contains` on character lists. -/
def hasInfixChars (pat : List Char) : List Char → Bool
  | [] => startsWithChars [] pat
  | c :: t => startsWithChars (c :: t) pat || hasInfixChars pat t

/-- `strings.Contains(strings.ToLower(notes), "roll")` (ASCII lowering, as in
the data this code consumes). -/
def notesMentionRoll (notes : String) : Bool :=
  hasInfixChars ['r', 'o', 'l', 'l'] (notes.data.map Char.toLower)

/-- A freshly created `OptionPosition` (the `!exists` branch): identifying
fields from the first transaction bearing the id, all else zero. -/
def newOptionPos (tx : OptionTransaction) : OptionPosition :=
  { PositionID := tx.PositionID, Symbol := tx.Symbol, OptionType := tx.OptionType,
    Strike := tx.Strike, Expiry := tx.Expiry, Contracts := tx.Contracts,
    Status := "Open", OpenDate := "", CloseDate := "",
    PremiumCollected := 0, PremiumPaid := 0, NetPremium := 0, Commissions := 0,
    MaxProfit := 0, DaysHeld := 0, DaysToExpiry := 0,
    AnnualizedReturn := 0, PercentReturn := 0, Capital := 0 }

/-- The `switch tx.Action` body of `CalculateOptionPositions`
(src/web/options_transactions.go, lines 124–168). -/
def stepOption (cb : List (String × ℚ)) (p : OptionPosition) (tx : OptionTransaction) :
    OptionPosition :=
  if tx.Action = "Sell to Open" then
    { p with
      OpenDate := tx.Date,
      PremiumCollected := p.PremiumCollected + tx.Premium,
      Commissions := p.Commissions + tx.Commission,
      Capital :=
        if tx.OptionType = "Put" then tx.Strike * (tx.Contracts : ℚ) * 100
        else
          match cbLookup cb tx.Symbol with
          | some costBasis => costBasis * (tx.Contracts : ℚ) * 100
          | none => tx.StockPrice * (tx.Contracts : ℚ) * 100 }
  else if tx.Action = "Buy to Close" then
    { p with
      PremiumPaid := p.PremiumPaid + |tx.Premium|,
      Commissions := p.Commissions + tx.Commission,
      CloseDate := tx.Date,
      Status := if notesMentionRoll tx.Notes then "Rolled" else "Closed Early" }
  else if tx.Action = "Expired" then { p with CloseDate := tx.Date, Status := "Expired" }
  else if tx.Action = "Assigned" then { p with CloseDate := tx.Date, Status := "Assigned" }
  else if tx.Action = "Exercised" then { p with CloseDate := tx.Date, Status := "Exercised" }
  else p

/-- The `positionMap`, an association list in first-seen (insertion) order. -/
abbrev PosMap := List (String × OptionPosition)

/-- Go map read of `positionMap[id]`. -/
def lookupPos : PosMap → String → Option OptionPosition
  | [], _ => none
  | (k, v) :: rest, s => if k = s then some v else lookupPos rest s

/-- In-place mutation through the stored pointer: replace the binding. -/
def storePos : PosMap → String → OptionPosition → PosMap
  | [], s, v => [(s, v)]
  | (k, w) :: rest, s, v => if k = s then (k, v) :: rest else (k, w) :: storePos rest s v

/-- One iteration of `CalculateOptionPositions`'s transaction loop
(src/web/options_transactions.go, lines 103–169). -/
def processOptionTx (cb : List (String × ℚ)) (st : PosMap) (tx : OptionTransaction) : PosMap :=
  if tx.PositionID = "" then st
  else
    match lookupPos st tx.PositionID with
    | some p => storePos st tx.PositionID (stepOption cb p tx)
    | none => st ++ [(tx.PositionID, stepOption cb (newOptionPos tx) tx)]

/-- Metrics pass, first block (src/web/options_transactions.go, lines
174–176): net premium and max profit. -/
def metricsNet (p : OptionPosition) : OptionPosition :=
  { p with
    NetPremium := p.PremiumCollected - p.PremiumPaid - p.Commissions,
    MaxProfit := p.PremiumCollected }

/-- Metrics pass, days-held block (lines 178–183). -/
def metricsDaysHeld (p : OptionPosition) : OptionPosition :=
  if p.OpenDate ≠ "" ∧ p.CloseDate ≠ "" then
    { p with DaysHeld := parseDateD p.CloseDate - parseDateD p.OpenDate }
  else p

/-- Metrics pass, days-to-expiry block with the floor at 1 (lines 185–193). -/
def metricsDaysToExpiry (p : OptionPosition) : OptionPosition :=
  if p.OpenDate ≠ "" ∧ p.Expiry ≠ "" then
    { p with DaysToExpiry :=
        if parseDateD p.Expiry - parseDateD p.OpenDate < 1 then 1
        else parseDateD p.Expiry - parseDateD p.OpenDate }
  else p

/-- Metrics pass, returns block (lines 195–203): Go assigns `PercentReturn`
first and then reads it (and the untouched `DaysToExpiry`) for the annualized
return, so the sequenced assignments are inlined here. -/
def metricsReturns (p : OptionPosition) : OptionPosition :=
  if 0 < p.Capital then
    if 0 < p.DaysToExpiry then
      { p with
        PercentReturn := p.NetPremium / p.Capital * 100,
        AnnualizedReturn := p.NetPremium / p.Capital * 100 / (p.DaysToExpiry : ℚ) * 365 }
    else { p with PercentReturn := p.NetPremium / p.Capital * 100 }
  else p

/-- The metrics pass over one aggregated position
(src/web/options_transactions.go, lines 173–203): the four sequential blocks. -/
def finalizeMetrics (p : OptionPosition) : OptionPosition :=
  metricsReturns (metricsDaysToExpiry (metricsDaysHeld (metricsNet p)))

/-- The read-time lazy expiry projection (src/web/options_transactions.go,
lines 205–214).  `now` is the evaluation time `time.Now()` in (possibly
fractional) days since 1970-01-01; `After` is a strict comparison. -/
def applyLazyExpiry (now : ℚ) (p : OptionPosition) : OptionPosition :=
  if p.Status = "Open" ∧ p.CloseDate = "" then
    match parseDate p.Expiry with
    | some e => if (e : ℚ) < now then { p with Status := "Expired", CloseDate := p.Expiry } else p
    | none => p
  else p

/-- `CalculateOptionPositions` before the lazy expiry projection: the
aggregation fold followed by the metrics pass, in insertion order (Go's map
iteration order is unspecified; properties below are stated via membership). -/
def calcOptionPositionsPre (stockTxs : List StockTransaction) (txs : List OptionTransaction) :
    List OptionPosition :=
  ((txs.foldl (processOptionTx (calculateStockCostBasisAtDate stockTxs)) []).map
    (fun e => finalizeMetrics e.2))

/-- `CalculateOptionPositions` (src/web/options_transactions.go,
lines 96–220).  The stock transactions it loads from
`data/stocks_transactions.csv` for covered-call cost basis are passed as the
`stockTxs` parameter, and `time.Now()` as `now`. -/
def CalculateOptionPositions (stockTxs : List StockTransaction) (now : ℚ)
    (txs : List OptionTransaction) : List OptionPosition :=
  (calcOptionPositionsPre stockTxs txs).map (applyLazyExpiry now)

/-! ## Deposits (src/web/transactions.go) -/

/-- `web.Transaction`: a funding transaction with a human-readable date and a
currency-string amount. -/
structure Transaction where
  Date : String
  Type' : String
  Amount : String
deriving DecidableEq

/-- Decimal value of a digit string. -/
def digitsVal (l : List Char) : ℚ := l.foldl (fun acc c => acc * 10 + (digitVal c : ℚ)) 0

/-- `strconv.ParseFloat` on the plain-decimal forms the data uses
(`[sign] digits [. digits]`, at least one digit; exponent and special forms
are out of the data's grammar and parse to `none` here as a conservative
model of the skipped-row path). -/
def parseDecChars (l : List Char) : Option ℚ :=
  let core : List Char → Option ℚ := fun l =>
    let ip := l.takeWhile Char.isDigit
    match l.drop ip.length with
    | [] => if ip = [] then none else some (digitsVal ip)
    | '.' :: fp =>
      if fp.all Char.isDigit ∧ (ip ≠ [] ∨ fp ≠ []) then
        some (digitsVal ip + digitsVal fp / (10 : ℚ) ^ fp.length)
      else none
    | _ => none
  match l with
  | '-' :: rest => (core rest).map Neg.neg
  | '+' :: rest => core rest
  | _ => core l

/-- `strings.TrimPrefix(amount, "$")` followed by
`strings.ReplaceAll(amount, ",", "")`. -/
def moneyChars (s : String) : List Char :=
  (match s.data with
   | '$' :: r => r
   | l => l).filter (· ≠ ',')

/-- The amount-parsing pipeline used for deposit rows. -/
def parseMoney (s : String) : Option ℚ := parseDecChars (moneyChars s)

/-- `CalculateTotalDeposits` (src/web/transactions.go, lines 49–61). -/
def CalculateTotalDeposits (transactions : List Transaction) : ℚ :=
  transactions.foldl
    (fun total t =>
      if t.Type' = "Deposit" then
        match parseMoney t.Amount with
        | some a => total + a
        | none => total
      else total) 0

/-! ## Portfolio analytics (src/web/analytics.go, `CalculateAnalytics`) -/

/-- `web.Analytics` (without the `DailyReturns`/`DailyReturnsJSON`
presentation fields, which are serialization plumbing out of this model's
scope). -/
structure Analytics where
  TotalPremiums : ℚ
  TotalCapital : ℚ
  TotalActiveCapital : ℚ
  PremiumPerDay : ℚ
  AvgReturnPerTrade : ℚ
  LargestPremium : ℚ
  SmallestPremium : ℚ
  AveragePremium : ℚ
  OptionTradesCount : ℤ
  StockTradesCount : ℤ
  TotalTradesCount : ℤ
  DaysSinceStart : ℤ
  OpenOptionsCount : ℤ
  ClosedOptionsCount : ℤ
  OptionsActiveCapital : ℚ
  CollectedPremiums : ℚ
  TotalDeposits : ℚ
  TotalStockProfitLoss : ℚ
  TotalPortfolioValue : ℚ
  TotalPortfolioProfit : ℚ
  TotalPortfolioProfitPercentage : ℚ
  DailyTheta : ℚ
deriving DecidableEq

/-- Accumulator of the option-position loop of `CalculateAnalytics`
(src/web/analytics.go, lines 67–132), including its local variables. -/
structure AnalyticsAcc where
  OpenOptionsCount : ℤ
  ClosedOptionsCount : ℤ
  DailyTheta : ℚ
  TotalPremiums : ℚ
  CollectedPremiums : ℚ
  LargestPremium : ℚ
  SmallestPremium : ℚ
  TotalCapital : ℚ
  OptionsActiveCapital : ℚ
  TotalActiveCapital : ℚ
  premiumCount : ℤ
  totalReturns : ℚ
  returnCount : ℤ
  earliestDate : Option ℤ
deriving DecidableEq

/-- Initial accumulator (`SmallestPremium` is initialized to a large number). -/
def accInit : AnalyticsAcc :=
  ⟨0, 0, 0, 0, 0, 0, 999999, 0, 0, 0, 0, 0, 0, none⟩

/-- Option-loop block: open/closed counting and daily theta
(src/web/analytics.go, lines 76–86). -/
def optLoopStatus (acc : AnalyticsAcc) (pos : OptionPosition) : AnalyticsAcc :=
  if pos.Status = "Open" then
    { acc with
      OpenOptionsCount := acc.OpenOptionsCount + 1,
      DailyTheta :=
        if 0 < pos.DaysToExpiry then acc.DailyTheta + pos.NetPremium / (pos.DaysToExpiry : ℚ)
        else acc.DailyTheta }
  else { acc with ClosedOptionsCount := acc.ClosedOptionsCount + 1 }

/-- Option-loop block: premium tracking for positive net premiums
(src/web/analytics.go, lines 88–102). -/
def optLoopPremium (acc : AnalyticsAcc) (pos : OptionPosition) : AnalyticsAcc :=
  if 0 < pos.NetPremium then
    { acc with
      TotalPremiums := acc.TotalPremiums + pos.NetPremium,
      CollectedPremiums := acc.CollectedPremiums + pos.PremiumCollected,
      premiumCount := acc.premiumCount + 1,
      LargestPremium :=
        if acc.LargestPremium < pos.NetPremium then pos.NetPremium else acc.LargestPremium,
      SmallestPremium :=
        if pos.NetPremium < acc.SmallestPremium then pos.NetPremium else acc.SmallestPremium }
  else acc

/-- Option-loop block: capital tracking (src/web/analytics.go, lines 104–118). -/
def optLoopCapital (acc : AnalyticsAcc) (pos : OptionPosition) : AnalyticsAcc :=
  if 0 < pos.Capital then
    { acc with
      TotalCapital := acc.TotalCapital + pos.Capital,
      OptionsActiveCapital :=
        if pos.Status = "Open" then acc.OptionsActiveCapital + pos.Capital
        else acc.OptionsActiveCapital,
      TotalActiveCapital :=
        if pos.Status = "Open" ∧ pos.OptionType = "Put" then acc.TotalActiveCapital + pos.Capital
        else acc.TotalActiveCapital }
  else acc

/-- Option-loop block: return tracking (src/web/analytics.go, lines 120–124). -/
def optLoopReturns (acc : AnalyticsAcc) (pos : OptionPosition) : AnalyticsAcc :=
  if pos.PercentReturn ≠ 0 then
    { acc with
      totalReturns := acc.totalReturns + pos.PercentReturn,
      returnCount := acc.returnCount + 1 }
  else acc

/-- Option-loop block: earliest open date (src/web/analytics.go,
lines 126–131). -/
def optLoopEarliest (acc : AnalyticsAcc) (pos : OptionPosition) : AnalyticsAcc :=
  match parseDate pos.OpenDate with
  | some d =>
    match acc.earliestDate with
    | none => { acc with earliestDate := some d }
    | some e => if d < e then { acc with earliestDate := some d } else acc
  | none => acc

/-- One iteration of the option-position loop of `CalculateAnalytics`
(src/web/analytics.go, lines 75–132): the five sequential blocks. -/
def optLoopStep (acc : AnalyticsAcc) (pos : OptionPosition) : AnalyticsAcc :=
  optLoopEarliest (optLoopReturns (optLoopCapital (optLoopPremium
    (optLoopStatus acc pos) pos) pos) pos) pos

/-- Truncation toward zero, the semantics of Go's `int(x)` conversion. -/
def ratTrunc (q : ℚ) : ℤ := if q < 0 then -((-q).floor) else q.floor

/-- Earliest parseable stock-transaction date (src/web/analytics.go,
lines 173–180). -/
def earliestStockDate (txs : List StockTransaction) : Option ℤ :=
  txs.foldl
    (fun acc tx =>
      match parseDate tx.Date with
      | some d =>
        match acc with
        | none => some d
        | some e => if d < e then some d else acc
      | none => acc) none

/-- `CalculateAnalytics` (src/web/analytics.go, lines 62–228, without the
daily-return serialization tail).  The CSV files the Go function reads from
fixed paths are passed as parameters: `optionTxs` for
`data/options_transactions.csv`, `stockTransactions` for
`data/stocks_transactions.csv`, `stockPrices` for `data/stock_prices.csv`;
`now` is the evaluation time in days since 1970-01-01.  The Go signature's
`trades`/`stocks` arguments are dead in the function body and omitted. -/
def CalculateAnalytics (transactions : List Transaction) (optionTxs : List OptionTransaction)
    (stockTransactions : List StockTransaction) (stockPrices : List (String × ℚ))
    (now : ℚ) : Analytics :=
  let optionPositions := CalculateOptionPositions stockTransactions now optionTxs
  let acc := optionPositions.foldl optLoopStep accInit
  let premiumPerDay : ℚ :=
    match acc.earliestDate with
    | some d => if 0 < now - (d : ℚ) then acc.TotalPremiums / (now - (d : ℚ)) else 0
    | none => 0
  let avgReturnPerTrade : ℚ :=
    if 0 < acc.returnCount then acc.totalReturns / (acc.returnCount : ℚ) else 0
  let averagePremium : ℚ :=
    if 0 < acc.premiumCount then acc.TotalPremiums / (acc.premiumCount : ℚ) else 0
  let smallestPremium : ℚ := if acc.SmallestPremium = 999999 then 0 else acc.SmallestPremium
  let optionTradesCount : ℤ := optionPositions.length
  let totalDeposits := CalculateTotalDeposits transactions
  let stockBlock : ℚ × ℚ × ℤ × ℤ :=
    if stockTransactions ≠ [] then
      let positions := CalculateAllPositions stockTransactions stockPrices
      let daysSinceStart : ℤ :=
        match earliestStockDate stockTransactions with
        | some d => ratTrunc (now - (d : ℚ))
        | none => 0
      let folded : ℚ × ℚ × ℤ × ℤ :=
        positions.foldl
          (fun st pos =>
            if pos.Type' = "closed" then (st.1 + pos.RealizedPnL, st.2.1, st.2.2.1, st.2.2.2 + 1)
            else if pos.Type' = "open" then (st.1, st.2.1 + pos.CostBasis, st.2.2.1 + 1, st.2.2.2)
            else st) (0, 0, 0, 0)
      (folded.1, folded.2.1, folded.2.2.1 + folded.2.2.2, daysSinceStart)
    else (0, 0, 0, 0)
  let totalStockProfitLoss := stockBlock.1
  let totalActiveCapital := acc.TotalActiveCapital + stockBlock.2.1
  let stockTradesCount := stockBlock.2.2.1
  let daysSinceStart := stockBlock.2.2.2
  let totalPortfolioValue := totalDeposits + acc.TotalPremiums + totalStockProfitLoss
  let totalPortfolioProfit := acc.TotalPremiums + totalStockProfitLoss
  let totalPortfolioProfitPercentage : ℚ :=
    if 0 < totalDeposits then totalPortfolioProfit / totalDeposits * 100 else 0
  { TotalPremiums := acc.TotalPremiums
    TotalCapital := acc.TotalCapital
    TotalActiveCapital := totalActiveCapital
    PremiumPerDay := premiumPerDay
    AvgReturnPerTrade := avgReturnPerTrade
    LargestPremium := acc.LargestPremium
    SmallestPremium := smallestPremium
    AveragePremium := averagePremium
    OptionTradesCount := optionTradesCount
    StockTradesCount := stockTradesCount
    TotalTradesCount := optionTradesCount + stockTradesCount
    DaysSinceStart := daysSinceStart
    OpenOptionsCount := acc.OpenOptionsCount
    ClosedOptionsCount := acc.ClosedOptionsCount
    OptionsActiveCapital := acc.OptionsActiveCapital
    CollectedPremiums := acc.CollectedPremiums
    TotalDeposits := totalDeposits
    TotalStockProfitLoss := totalStockProfitLoss
    TotalPortfolioValue := totalPortfolioValue
    TotalPortfolioProfit := totalPortfolioProfit
    TotalPortfolioProfitPercentage := totalPortfolioProfitPercentage
    DailyTheta := acc.DailyTheta }

/-! ## Time-weighted return (src/unnamed/part_007, `CalculateTimeWeightedReturn`)

`CalculatePortfolioValueAsOf` replays the CSV transaction store to
reconstruct a portfolio value at a date; here that file-backed collaborator
is the explicit valuation parameter `pv` (a pure function of the evaluation
time, in days since 1970-01-01).  Only the cumulative component is modelled:
the annualized component uses `math.Pow` with a fractional exponent, which
has no exact rational counterpart. -/

/-- `time.Parse("January 2 2006", s)`: full month name, 1–2 digit day,
4-digit year, range-checked. -/
def matchMonth (s : List Char) : Option (ℤ × List Char) :=
  let table : List (ℤ × List Char) :=
    [(1, "January".data), (2, "February".data), (3, "March".data), (4, "April".data),
     (5, "May".data), (6, "June".data), (7, "July".data), (8, "August".data),
     (9, "September".data), (10, "October".data), (11, "November".data), (12, "December".data)]
  table.foldr
    (fun e acc =>
      if startsWithChars s e.2 then some (e.1, s.drop e.2.length) else acc) none

/-- Go's non-fixed two-digit number read for the day field. -/
def parseDay : List Char → Option (ℤ × List Char)
  | [] => none
  | [c1] => if c1.isDigit then some (digitVal c1, []) else none
  | c1 :: c2 :: rest =>
    if c1.isDigit then
      if c2.isDigit then some (10 * digitVal c1 + digitVal c2, rest)
      else some (digitVal c1, c2 :: rest)
    else none

/-- Parse a deposit date of the form `January 2 2006` to a day number. -/
def parseLongDate (s : String) : Option ℤ :=
  match matchMonth s.data with
  | some (m, ' ' :: r1) =>
    match parseDay r1 with
    | some (d, [' ', y1, y2, y3, y4]) =>
      if y1.isDigit ∧ y2.isDigit ∧ y3.isDigit ∧ y4.isDigit then
        let y := 1000 * digitVal y1 + 100 * digitVal y2 + 10 * digitVal y3 + digitVal y4
        if 1 ≤ d ∧ d ≤ daysInMonth y m then some (daysFromCivil y m d) else none
      else none
    | _ => none
  | _ => none

/-- `web.CashFlowEvent` with the parsed date as a day number. -/
structure CashFlowEvent where
  Date : ℤ
  Amount : ℚ
deriving DecidableEq

/-- Collection of deposit events (src/unnamed/part_007, lines 853–876): rows
whose date or amount fails to parse are skipped. -/
def collectCashFlows (transactions : List Transaction) : List CashFlowEvent :=
  transactions.filterMap
    (fun t =>
      if t.Type' = "Deposit" then
        match parseLongDate t.Date, parseMoney t.Amount with
        | some d, some a => some ⟨d, a⟩
        | _, _ => none
      else none)

/-- The order the cash flows are sorted in (`Date.Before`). -/
def cfLE (a b : CashFlowEvent) : Prop := a.Date ≤ b.Date

instance : DecidableRel cfLE := fun a b => inferInstanceAs (Decidable (a.Date ≤ b.Date))

/-- Same-calendar-day consolidation (src/unnamed/part_007, lines 887–908),
already running on the current group's date and amount. -/
def consolidateFrom (cur : ℤ) (amt : ℚ) : List CashFlowEvent → List CashFlowEvent
  | [] => [⟨cur, amt⟩]
  | cf :: rest =>
    if cf.Date = cur then consolidateFrom cur (amt + cf.Amount) rest
    else ⟨cur, amt⟩ :: consolidateFrom cf.Date cf.Amount rest

/-- The sub-period returns derived between consecutive cash flows and from the
last cash flow to now (src/unnamed/part_007, lines 912–938): `pv` is queried
one second (`1/86400` day) before each subsequent deposit. -/
def periodLoop (pv : ℚ → ℚ) (now : ℚ) : ℚ → List CashFlowEvent → List ℚ
  | startValue, [] =>
    if 0 < startValue then [(pv now - startValue) / startValue] else []
  | startValue, cf :: rest =>
    let endValue := pv ((cf.Date : ℚ) - 1 / 86400)
    (if 0 < startValue then [(endValue - startValue) / startValue] else []) ++
      periodLoop pv now (endValue + cf.Amount) rest

/-- The sub-period return list `CalculateTimeWeightedReturn` derives from its
input (empty when there are no deposits, mirroring the early return). -/
def derivedPeriodReturns (transactions : List Transaction) (pv : ℚ → ℚ) (now : ℚ) : List ℚ :=
  match List.insertionSort cfLE (collectCashFlows transactions) with
  | [] => []
  | cf0 :: rest =>
    match consolidateFrom cf0.Date cf0.Amount rest with
    | [] => []
    | c0 :: crest => periodLoop pv now c0.Amount crest

/-- Cumulative component of `CalculateTimeWeightedReturn` (src/unnamed/
part_007, lines 851–956): geometric linking of the sub-period returns,
returned as a percentage. -/
def CalculateTimeWeightedReturnCumulative (transactions : List Transaction) (pv : ℚ → ℚ)
    (now : ℚ) : ℚ :=
  match List.insertionSort cfLE (collectCashFlows transactions) with
  | [] => 0
  | cf0 :: rest =>
    match consolidateFrom cf0.Date cf0.Amount rest with
    | [] => 0
    | c0 :: crest =>
      let returns := periodLoop pv now c0.Amount crest
      (returns.foldl (fun cumulative r => cumulative * (1 + r)) 1 - 1) * 100

/-! ## Derived input measures used by the claims -/

/-- Total shares bought for a symbol. -/
def boughtShares (txs : List StockTransaction) (s : String) : ℚ :=
  ((txs.filter (fun tx => decide (tx.Type' = "Buy" ∧ tx.Symbol = s))).map (·.Shares)).sum

/-- Total shares sold for a symbol. -/
def soldShares (txs : List StockTransaction) (s : String) : ℚ :=
  ((txs.filter (fun tx => decide (tx.Type' = "Sell" ∧ tx.Symbol = s))).map (·.Shares)).sum

/-- Per symbol, cumulative sell volume never exceeds cumulative buy volume at
any prefix of the transaction list. -/
def SellsCovered (txs : List StockTransaction) : Prop :=
  ∀ n ∈ List.range (txs.length + 1), ∀ s ∈ txs.map (·.Symbol),
    soldShares (txs.take n) s ≤ boughtShares (txs.take n) s

instance (txs : List StockTransaction) : Decidable (SellsCovered txs) := by
  unfold SellsCovered
  infer_instance

/-- Shares recorded on the emitted closed positions for a symbol. -/
def closedSharesOf (l : List Position) (s : String) : ℚ :=
  ((l.filter (fun p => decide (p.Type' = "closed" ∧ p.Symbol = s))).map (·.Shares)).sum

/-! ## Lot-tracking lemmas -/

theorem lotsShares_nil : lotsShares [] = 0 := rfl

theorem lotsShares_cons (x : Lot) (l : List Lot) :
    lotsShares (x :: l) = x.Shares + lotsShares l := by
  simp [lotsShares]

theorem lotsShares_append (l₁ l₂ : List Lot) :
    lotsShares (l₁ ++ l₂) = lotsShares l₁ + lotsShares l₂ := by
  simp [lotsShares]

/-- `sellFold` conserves shares: consumed plus kept equals what was there. -/
theorem sellFold_shares (lots : List Lot) (r : ℚ) :
    lotsShares (sellFold lots r).1 + lotsShares (sellFold lots r).2.1 = lotsShares lots := by
  induction lots generalizing r with
  | nil => simp [sellFold, lotsShares]
  | cons lot rest ih =>
    by_cases h1 : r ≤ 0
    · simp only [sellFold, if_pos h1, lotsShares_cons]
      have := ih r
      linarith
    · by_cases h2 : lot.Shares ≤ r
      · simp only [sellFold, if_neg h1, if_pos h2, lotsShares_cons]
        have := ih (r - lot.Shares)
        linarith
      · simp only [sellFold, if_neg h1, if_neg h2, lotsShares_cons]
        have := ih 0
        linarith

theorem getLots_setLots_self (m : SymbolLots) (s : String) (v : List Lot) :
    getLots (setLots m s v) s = v := by
  induction m with
  | nil => simp [setLots, getLots]
  | cons e rest ih =>
    obtain ⟨k, w⟩ := e
    by_cases h : k = s
    · simp [setLots, getLots, h]
    · simp [setLots, getLots, h, ih]

theorem getLots_setLots_ne (m : SymbolLots) (s s' : String) (v : List Lot) (h : s ≠ s') :
    getLots (setLots m s v) s' = getLots m s' := by
  induction m with
  | nil => simp [setLots, getLots, h]
  | cons e rest ih =>
    obtain ⟨k, w⟩ := e
    by_cases hk : k = s
    · subst hk
      simp [setLots, getLots, h, ih]
    · simp only [setLots, if_neg hk, getLots]
      by_cases hk' : k = s'
      · simp [hk']
      · simp [hk', ih]

/-- The conserved quantity of claim C1 for one symbol: shares remaining in the
open lots plus shares on the emitted closed positions. -/
def conservedQty (st : EngineState) (s : String) : ℚ :=
  lotsShares (getLots st.lots s) + closedSharesOf st.closed s

theorem closedSharesOf_append (l₁ l₂ : List Position) (s : String) :
    closedSharesOf (l₁ ++ l₂) s = closedSharesOf l₁ s + closedSharesOf l₂ s := by
  simp [closedSharesOf]

theorem closedSharesOf_closedPosOf (tx : StockTransaction) (c0 : Lot) (cl : List Lot)
    (cbs : ℚ) (s : String) :
    closedSharesOf [closedPosOf tx c0 cl cbs] s =
      if tx.Symbol = s then lotsShares cl else 0 := by
  by_cases hs : tx.Symbol = s
  · simp [closedSharesOf, closedPosOf, hs]
  · simp [closedSharesOf, closedPosOf, hs]

/-- One engine step changes the conserved quantity exactly by the shares of a
matching Buy. -/
theorem conservedQty_step (st : EngineState) (tx : StockTransaction) (s : String) :
    conservedQty (processStockTx st tx) s =
      conservedQty st s + (if tx.Type' = "Buy" ∧ tx.Symbol = s then tx.Shares else 0) := by
  by_cases hb : tx.Type' = "Buy"
  · by_cases hs : tx.Symbol = s
    · subst hs
      simp [conservedQty, processStockTx, hb, getLots_setLots_self, lotsShares_append,
        lotsShares_cons, lotsShares_nil]
      ring
    · simp [conservedQty, processStockTx, hb, hs, getLots_setLots_ne _ _ _ _ hs]
  · by_cases hsell : tx.Type' = "Sell"
    · have hcons := sellFold_shares (getLots st.lots tx.Symbol) tx.Shares
      rcases hr : (sellFold (getLots st.lots tx.Symbol) tx.Shares).1 with _ | ⟨c0, ctl⟩
      · rw [hr] at hcons
        simp only [lotsShares_nil, zero_add] at hcons
        by_cases hs : tx.Symbol = s
        · subst hs
          simp [conservedQty, processStockTx, hb, hsell, hr, getLots_setLots_self, hcons]
        · simp [conservedQty, processStockTx, hb, hsell, hr, hs,
            getLots_setLots_ne _ _ _ _ (fun h => hs h)]
      · rw [hr] at hcons
        by_cases hs : tx.Symbol = s
        · subst hs
          simp only [conservedQty, processStockTx, if_neg hb, if_pos hsell, hr,
            getLots_setLots_self, closedSharesOf_append, closedSharesOf_closedPosOf,
            if_pos rfl, if_true]
          simp only [hb, false_and, if_false]
          linarith
        · simp only [conservedQty, processStockTx, if_neg hb, if_pos hsell, hr,
            getLots_setLots_ne _ _ _ _ (fun h => hs h), closedSharesOf_append,
            closedSharesOf_closedPosOf, if_neg hs]
          simp [hb]
    · simp [conservedQty, processStockTx, hb, hsell]

theorem boughtShares_cons (tx : StockTransaction) (txs : List StockTransaction) (s : String) :
    boughtShares (tx :: txs) s =
      (if tx.Type' = "Buy" ∧ tx.Symbol = s then tx.Shares else 0) + boughtShares txs s := by
  by_cases h : tx.Type' = "Buy" ∧ tx.Symbol = s
  · simp [boughtShares, h]
  · simp [boughtShares, h]

theorem conservedQty_foldl (txs : List StockTransaction) :
    ∀ (st : EngineState) (s : String),
      conservedQty (txs.foldl processStockTx st) s = conservedQty st s + boughtShares txs s := by
  induction txs with
  | nil => intro st s; simp [boughtShares]
  | cons tx rest ih =>
    intro st s
    simp only [List.foldl_cons]
    rw [ih (processStockTx st tx) s, conservedQty_step, boughtShares_cons]
    ring

/-- C1.  Share conservation under FIFO lot tracking: with per-symbol sell
volume never exceeding cumulative buy volume on any prefix, the shares left in
the open lots plus the shares recorded on the emitted closed positions equal
the total shares bought, for every symbol.  (The proof in fact never needs the
hypothesis: the engine conserves shares unconditionally.) -/
theorem shares_conservation (txs : List StockTransaction) (h : SellsCovered txs) (s : String) :
    lotsShares (getLots (runStockTxs txs).lots s) +
      closedSharesOf (runStockTxs txs).closed s = boughtShares txs s := by
  have := conservedQty_foldl txs ⟨[], []⟩ s
  simpa [conservedQty, getLots, closedSharesOf, runStockTxs, lotsShares] using this

def exC1 : List StockTransaction :=
  [⟨"2025-01-01", "Buy", "X", 10, 10, 100, 0⟩,
   ⟨"2025-01-02", "Buy", "X", 5, 20, 100, 0⟩,
   ⟨"2025-01-03", "Sell", "X", 12, 15, 180, 0⟩,
   ⟨"2025-01-04", "Sell", "X", 1, 15, 15, 0⟩]

/-- C1, instantiated: the hypothesis holds and the conservation identity
evaluates on a concrete covered Buy/Sell sequence. -/
theorem shares_conservation_witness :
    SellsCovered exC1 ∧
      lotsShares (getLots (runStockTxs exC1).lots "X") +
        closedSharesOf (runStockTxs exC1).closed "X" = boughtShares exC1 "X" :=
  ⟨of_decide_eq_true (by with_unfolding_all rfl),
   shares_conservation exC1 (of_decide_eq_true (by with_unfolding_all rfl)) "X"⟩

def exC3 : List StockTransaction :=
  [⟨"2025-01-01", "Buy", "X", 10, 10, 100, 0⟩,
   ⟨"2025-01-02", "Buy", "X", 5, 20, 100, 0⟩,
   ⟨"2025-01-03", "Sell", "X", 12, 15, 180, 0⟩]

/-- C3.  FIFO consumption order: Buys of 10@$10 then 5@$20, then a Sell of 12
shares: the one closed position covers 12 shares with cost basis sold 140 and
open date that of the first lot, and one open lot of 3 shares at $20 with cost
basis 60 remains. -/
theorem fifo_consumption_example :
    ((runStockTxs exC3).closed.map (fun p => (p.Shares, p.CostBasis, p.OpenDate)) =
      [(12, 140, "2025-01-01")]) ∧
    getLots (runStockTxs exC3).lots "X" = [⟨"2025-01-02", 3, 20, 60⟩] ∧
    (CalculateAllPositions exC3 []).map (fun p => (p.Type', p.Shares, p.CostBasis)) =
      [("open", 3, 60), ("closed", 12, 140)] :=
  ⟨by with_unfolding_all rfl, by with_unfolding_all rfl, by with_unfolding_all rfl⟩

/-! ## Counting closed and open positions (C2) -/

/-- The Sell transactions that actually consume a lot: positive share count
with a nonempty lot queue for the symbol at that point of the replay. -/
def consumingSells : SymbolLots → List StockTransaction → ℕ
  | _, [] => 0
  | m, tx :: rest =>
    (if tx.Type' = "Sell" ∧ 0 < tx.Shares ∧ getLots m tx.Symbol ≠ [] then 1 else 0) +
      consumingSells (stepLots m tx) rest

theorem sellFold_closed_eq_nil_iff (lots : List Lot) (r : ℚ) :
    (sellFold lots r).1 = [] ↔ lots = [] ∨ r ≤ 0 := by
  induction lots generalizing r with
  | nil => simp [sellFold]
  | cons lot rest ih =>
    by_cases h1 : r ≤ 0
    · simp only [sellFold, if_pos h1]
      have := (ih r).mpr (Or.inr h1)
      simp [this, h1]
    · by_cases h2 : lot.Shares ≤ r
      · simp [sellFold, h1, h2]
      · simp [sellFold, h1, h2]

theorem processStockTx_lots (st : EngineState) (tx : StockTransaction) :
    (processStockTx st tx).lots = stepLots st.lots tx := by
  by_cases hb : tx.Type' = "Buy"
  · simp [processStockTx, stepLots, hb]
  · by_cases hsell : tx.Type' = "Sell"
    · rcases hr : (sellFold (getLots st.lots tx.Symbol) tx.Shares).1 with _ | ⟨c0, ctl⟩
      · simp [processStockTx, stepLots, hb, hsell, hr]
      · simp [processStockTx, stepLots, hb, hsell, hr]
    · simp [processStockTx, stepLots, hb, hsell]

theorem processStockTx_closed_length (st : EngineState) (tx : StockTransaction) :
    (processStockTx st tx).closed.length =
      st.closed.length +
        (if tx.Type' = "Sell" ∧ 0 < tx.Shares ∧ getLots st.lots tx.Symbol ≠ [] then 1 else 0) := by
  by_cases hb : tx.Type' = "Buy"
  · have : ¬ tx.Type' = "Sell" := by simp [hb]
    simp [processStockTx, hb, this]
  · by_cases hsell : tx.Type' = "Sell"
    · rcases hr : (sellFold (getLots st.lots tx.Symbol) tx.Shares).1 with _ | ⟨c0, ctl⟩
      · have hcase := (sellFold_closed_eq_nil_iff (getLots st.lots tx.Symbol) tx.Shares).mp hr
        have hcond : ¬ (tx.Type' = "Sell" ∧ 0 < tx.Shares ∧ getLots st.lots tx.Symbol ≠ []) := by
          rintro ⟨-, hpos, hne⟩
          rcases hcase with hnil | hle
          · exact hne hnil
          · exact absurd hle (not_le.mpr hpos)
        simp only [processStockTx, if_neg hb, if_pos hsell, hr, if_neg hcond, add_zero]
      · have hne : (sellFold (getLots st.lots tx.Symbol) tx.Shares).1 ≠ [] := by simp [hr]
        have hiff := sellFold_closed_eq_nil_iff (getLots st.lots tx.Symbol) tx.Shares
        have hcase : getLots st.lots tx.Symbol ≠ [] ∧ 0 < tx.Shares := by
          constructor
          · intro hnil; exact hne (hiff.mpr (Or.inl hnil))
          · by_contra hle; exact hne (hiff.mpr (Or.inr (not_lt.mp hle)))
        have hcond : tx.Type' = "Sell" ∧ 0 < tx.Shares ∧ getLots st.lots tx.Symbol ≠ [] :=
          ⟨hsell, hcase.2, hcase.1⟩
        simp only [processStockTx, if_neg hb, if_pos hsell, hr, if_pos hcond]
        simp
    · have hcond : ¬ (tx.Type' = "Sell" ∧ 0 < tx.Shares ∧ getLots st.lots tx.Symbol ≠ []) := by
        simp [hsell]
      simp [processStockTx, hb, hsell, hcond]

theorem closed_length_foldl (txs : List StockTransaction) :
    ∀ st : EngineState,
      (txs.foldl processStockTx st).closed.length =
        st.closed.length + consumingSells st.lots txs := by
  induction txs with
  | nil => intro st; simp [consumingSells]
  | cons tx rest ih =>
    intro st
    simp only [List.foldl_cons, consumingSells]
    rw [ih (processStockTx st tx), processStockTx_closed_length, processStockTx_lots]
    ring

theorem closed_all_closed (txs : List StockTransaction) :
    ∀ st : EngineState, (∀ p ∈ st.closed, p.Type' = "closed") →
      ∀ p ∈ (txs.foldl processStockTx st).closed, p.Type' = "closed" := by
  induction txs with
  | nil => intro st h; simpa using h
  | cons tx rest ih =>
    intro st h
    refine ih (processStockTx st tx) ?_
    intro p hp
    by_cases hb : tx.Type' = "Buy"
    · rw [processStockTx] at hp
      simp only [if_pos hb] at hp
      exact h p hp
    · by_cases hsell : tx.Type' = "Sell"
      · rw [processStockTx] at hp
        simp only [if_neg hb, if_pos hsell] at hp
        rcases hr : (sellFold (getLots st.lots tx.Symbol) tx.Shares).1 with _ | ⟨c0, ctl⟩
        · rw [hr] at hp
          exact h p hp
        · rw [hr] at hp
          simp only [List.mem_append, List.mem_singleton] at hp
          rcases hp with hp | hp
          · exact h p hp
          · subst hp; rfl
      · rw [processStockTx] at hp
        simp only [if_neg hb, if_neg hsell] at hp
        exact h p hp

theorem mkOpenPos_fields (prices : List (String × ℚ)) (e : String × List Lot)
    (p : Position) (h : mkOpenPos prices e = some p) :
    p.Type' = "open" ∧ p.Symbol = e.1 := by
  rcases e with ⟨k, lots⟩
  rcases lots with _ | ⟨l0, rest⟩
  · simp [mkOpenPos] at h
  · rw [mkOpenPos] at h
    by_cases hpos : 0 < lotsShares (l0 :: rest)
    · simp only [if_pos hpos, Option.some.injEq] at h
      subst h
      exact ⟨rfl, rfl⟩
    · simp [hpos] at h

theorem opens_all_open (m : SymbolLots) (prices : List (String × ℚ)) :
    ∀ p ∈ opensOf m prices, p.Type' = "open" := by
  intro p hp
  rcases List.mem_filterMap.mp hp with ⟨e, _, he⟩
  exact (mkOpenPos_fields prices e p he).1

theorem opensOf_cons (e : String × List Lot) (rest : SymbolLots) (prices : List (String × ℚ)) :
    opensOf (e :: rest) prices =
      match mkOpenPos prices e with
      | some p => p :: opensOf rest prices
      | none => opensOf rest prices := by
  rw [opensOf, List.filterMap_cons]
  rcases mkOpenPos prices e with _ | p <;> rfl

theorem opens_symbols_sublist (m : SymbolLots) (prices : List (String × ℚ)) :
    ((opensOf m prices).map (·.Symbol)).Sublist (m.map Prod.fst) := by
  induction m with
  | nil => simp [opensOf]
  | cons e rest ih =>
    rcases he : mkOpenPos prices e with _ | p
    · rw [opensOf_cons, he, List.map_cons]
      exact ih.cons e.1
    · rw [opensOf_cons, he, List.map_cons, List.map_cons,
        (mkOpenPos_fields prices e p he).2]
      exact ih.cons₂ e.1

theorem countP_symbol_le_one (l : List Position) (s : String)
    (h : (l.map (·.Symbol)).Nodup) :
    l.countP (fun p => decide (p.Symbol = s)) ≤ 1 := by
  induction l with
  | nil => simp
  | cons p rest ih =>
    rw [List.map_cons, List.nodup_cons] at h
    rw [List.countP_cons]
    by_cases hs : p.Symbol = s
    · have hzero : rest.countP (fun p => decide (p.Symbol = s)) = 0 := by
        rw [List.countP_eq_zero]
        intro q hq hqs
        have : q.Symbol = s := of_decide_eq_true hqs
        exact h.1 (by
          rw [← hs] at this
          exact this ▸ List.mem_map_of_mem (fun p => p.Symbol) hq)
      simp [hzero, hs]
    · simp only [hs, decide_eq_true_eq, if_neg hs, add_zero]
      exact Nat.le_trans (ih h.2) (le_refl 1)

theorem mem_keys_setLots (m : SymbolLots) (s a : String) (v : List Lot) :
    a ∈ (setLots m s v).map Prod.fst ↔ a ∈ m.map Prod.fst ∨ a = s := by
  induction m with
  | nil => simp [setLots]
  | cons e rest ih =>
    obtain ⟨k, w⟩ := e
    by_cases hk : k = s
    · subst hk
      constructor
      · intro h
        rcases (by simpa [setLots] using h : a = k ∨ a ∈ rest.map Prod.fst) with h | h
        · exact Or.inr h
        · exact Or.inl (by simp [h])
      · intro h
        rcases h with h | h
        · rcases (by simpa using h : a = k ∨ a ∈ rest.map Prod.fst) with h | h
          · simp [setLots, h]
          · simp [setLots, h]
        · simp [setLots, h]
    · simp only [setLots, if_neg hk, List.map_cons, List.mem_cons, ih]
      tauto

theorem nodup_keys_setLots (m : SymbolLots) (s : String) (v : List Lot)
    (h : (m.map Prod.fst).Nodup) : ((setLots m s v).map Prod.fst).Nodup := by
  induction m with
  | nil => simp [setLots]
  | cons e rest ih =>
    obtain ⟨k, w⟩ := e
    simp only [List.map_cons, List.nodup_cons] at h
    by_cases hk : k = s
    · subst hk
      simpa [setLots, List.nodup_cons] using h
    · simp only [setLots, if_neg hk, List.map_cons, List.nodup_cons]
      refine ⟨?_, ih h.2⟩
      rw [mem_keys_setLots]
      rintro (hc | hc)
      · exact h.1 hc
      · exact hk hc

theorem nodup_keys_stepLots (m : SymbolLots) (tx : StockTransaction)
    (h : (m.map Prod.fst).Nodup) : ((stepLots m tx).map Prod.fst).Nodup := by
  rw [stepLots]
  split
  · exact nodup_keys_setLots _ _ _ h
  · split
    · exact nodup_keys_setLots _ _ _ h
    · exact h

theorem nodup_keys_run (txs : List StockTransaction) :
    ∀ m : SymbolLots, (m.map Prod.fst).Nodup →
      (((txs.foldl stepLots m)).map Prod.fst).Nodup := by
  induction txs with
  | nil => intro m h; simpa using h
  | cons tx rest ih => intro m h; exact ih _ (nodup_keys_stepLots m tx h)

theorem runStockTxs_lots_eq (txs : List StockTransaction) :
    ∀ st : EngineState, (txs.foldl processStockTx st).lots = txs.foldl stepLots st.lots := by
  induction txs with
  | nil => intro st; rfl
  | cons tx rest ih =>
    intro st
    simp only [List.foldl_cons]
    rw [ih (processStockTx st tx), processStockTx_lots]

/-- C2, corrected part.  Counting: `CalculateAllPositions` emits exactly one
closed position per Sell transaction that consumes at least one lot (positive
share count, nonempty lot queue at its point of the replay), and at most one
open position per symbol. -/
theorem closed_per_consuming_sell (txs : List StockTransaction)
    (prices : List (String × ℚ)) :
    (CalculateAllPositions txs prices).countP (fun p => decide (p.Type' = "closed")) =
      consumingSells [] txs ∧
    ∀ s : String,
      (CalculateAllPositions txs prices).countP
        (fun p => decide (p.Type' = "open" ∧ p.Symbol = s)) ≤ 1 := by
  have hperm := List.perm_insertionSort posLE
    ((runStockTxs txs).closed ++ opensOf (runStockTxs txs).lots prices)
  constructor
  · rw [CalculateAllPositions, hperm.countP_eq, List.countP_append]
    have h1 : ((runStockTxs txs).closed).countP (fun p => decide (p.Type' = "closed")) =
        ((runStockTxs txs).closed).length := by
      rw [List.countP_eq_length]
      intro p hp
      exact decide_eq_true (closed_all_closed txs ⟨[], []⟩ (by simp) p hp)
    have h2 : (opensOf (runStockTxs txs).lots prices).countP
        (fun p => decide (p.Type' = "closed")) = 0 := by
      rw [List.countP_eq_zero]
      intro p hp
      have := opens_all_open _ prices p hp
      simp [this]
    rw [h1, h2]
    have := closed_length_foldl txs ⟨[], []⟩
    simpa [runStockTxs] using this
  · intro s
    rw [CalculateAllPositions, hperm.countP_eq, List.countP_append]
    have h1 : ((runStockTxs txs).closed).countP
        (fun p => decide (p.Type' = "open" ∧ p.Symbol = s)) = 0 := by
      rw [List.countP_eq_zero]
      intro p hp
      have := closed_all_closed txs ⟨[], []⟩ (by simp) p hp
      simp [this]
    rw [h1]
    have hnodup : (((runStockTxs txs).lots).map Prod.fst).Nodup := by
      rw [show (runStockTxs txs).lots = txs.foldl stepLots [] from
        runStockTxs_lots_eq txs ⟨[], []⟩]
      exact nodup_keys_run txs [] (by simp)
    have hsyms : ((opensOf (runStockTxs txs).lots prices).map (·.Symbol)).Nodup :=
      hnodup.sublist (opens_symbols_sublist _ prices)
    have hle : (opensOf (runStockTxs txs).lots prices).countP
        (fun p => decide (p.Type' = "open" ∧ p.Symbol = s)) ≤
        (opensOf (runStockTxs txs).lots prices).countP (fun p => decide (p.Symbol = s)) := by
      refine List.countP_mono_left ?_
      intro p _ hp
      have := of_decide_eq_true hp
      exact decide_eq_true this.2
    refine le_trans (by simpa using hle) ?_
    exact countP_symbol_le_one _ s hsyms

def exC2 : List StockTransaction := [⟨"2025-01-01", "Sell", "Y", 5, 10, 50, 0⟩]

/-- C2, counterexample to the claim as stated: a Sell with no lots available
emits no closed position at all, so "exactly one closed Position per Sell
transaction in the input" fails on a one-Sell input. -/
theorem closed_per_sell_counterexample :
    ¬ ((CalculateAllPositions exC2 []).countP (fun p => decide (p.Type' = "closed")) =
        exC2.countP (fun tx => decide (tx.Type' = "Sell"))) := by
  have h1 : (CalculateAllPositions exC2 []).countP (fun p => decide (p.Type' = "closed")) = 0 := by
    with_unfolding_all rfl
  have h2 : exC2.countP (fun tx => decide (tx.Type' = "Sell")) = 1 := by
    with_unfolding_all rfl
  rw [h1, h2]
  omega

/-! ## Option aggregation lemmas (C4, C5, C8, C10) -/

/-- Sum of premiums over the "Sell to Open" legs. -/
def premiumCollectedSum (txs : List OptionTransaction) : ℚ :=
  ((txs.filter (fun tx => decide (tx.Action = "Sell to Open"))).map (·.Premium)).sum

/-- Sum of absolute premiums over the "Buy to Close" legs. -/
def premiumPaidSum (txs : List OptionTransaction) : ℚ :=
  ((txs.filter (fun tx => decide (tx.Action = "Buy to Close"))).map (fun tx => |tx.Premium|)).sum

/-- Sum of commissions over the transactions. -/
def commissionsSum (txs : List OptionTransaction) : ℚ :=
  (txs.map (·.Commission)).sum

theorem stepOption_sto (cb : List (String × ℚ)) (p : OptionPosition) (tx : OptionTransaction)
    (h : tx.Action = "Sell to Open") :
    (stepOption cb p tx).PremiumCollected = p.PremiumCollected + tx.Premium ∧
    (stepOption cb p tx).PremiumPaid = p.PremiumPaid ∧
    (stepOption cb p tx).Commissions = p.Commissions + tx.Commission := by
  rw [stepOption, if_pos h]
  exact ⟨rfl, rfl, rfl⟩

theorem stepOption_btc (cb : List (String × ℚ)) (p : OptionPosition) (tx : OptionTransaction)
    (h : tx.Action = "Buy to Close") :
    (stepOption cb p tx).PremiumCollected = p.PremiumCollected ∧
    (stepOption cb p tx).PremiumPaid = p.PremiumPaid + |tx.Premium| ∧
    (stepOption cb p tx).Commissions = p.Commissions + tx.Commission := by
  have h2 : ¬ tx.Action = "Sell to Open" := by rw [h]; decide
  rw [stepOption, if_neg h2, if_pos h]
  exact ⟨rfl, rfl, rfl⟩

theorem premiumCollectedSum_cons (tx : OptionTransaction) (txs : List OptionTransaction) :
    premiumCollectedSum (tx :: txs) =
      (if tx.Action = "Sell to Open" then tx.Premium else 0) + premiumCollectedSum txs := by
  by_cases h : tx.Action = "Sell to Open"
  · simp [premiumCollectedSum, h]
  · simp [premiumCollectedSum, h]

theorem premiumPaidSum_cons (tx : OptionTransaction) (txs : List OptionTransaction) :
    premiumPaidSum (tx :: txs) =
      (if tx.Action = "Buy to Close" then |tx.Premium| else 0) + premiumPaidSum txs := by
  by_cases h : tx.Action = "Buy to Close"
  · simp [premiumPaidSum, h]
  · simp [premiumPaidSum, h]

theorem commissionsSum_cons (tx : OptionTransaction) (txs : List OptionTransaction) :
    commissionsSum (tx :: txs) = tx.Commission + commissionsSum txs := by
  simp [commissionsSum]

/-- Processing a transaction for the one existing position id keeps the map a
singleton and steps its position. -/
theorem processOptionTx_singleton (cb : List (String × ℚ)) (pid : String)
    (q : OptionPosition) (tx : OptionTransaction) (hpid : pid ≠ "")
    (htx : tx.PositionID = pid) :
    processOptionTx cb [(pid, q)] tx = [(pid, stepOption cb q tx)] := by
  rw [processOptionTx, htx, if_neg hpid]
  have hl : lookupPos [(pid, q)] pid = some q := by simp [lookupPos]
  rw [hl]
  simp [storePos]

/-- The aggregation fold over transactions that all bear one position id and
are "Sell to Open"/"Buy to Close" legs: the map stays a singleton whose
premium fields accumulate the leg sums. -/
theorem optFold_singleton (cb : List (String × ℚ)) (pid : String) (hpid : pid ≠ "")
    (txs : List OptionTransaction)
    (hall : ∀ tx ∈ txs, tx.PositionID = pid ∧
      (tx.Action = "Sell to Open" ∨ tx.Action = "Buy to Close")) :
    ∀ q : OptionPosition,
      ∃ q', txs.foldl (processOptionTx cb) [(pid, q)] = [(pid, q')] ∧
        q'.PremiumCollected = q.PremiumCollected + premiumCollectedSum txs ∧
        q'.PremiumPaid = q.PremiumPaid + premiumPaidSum txs ∧
        q'.Commissions = q.Commissions + commissionsSum txs := by
  induction txs with
  | nil =>
    intro q
    refine ⟨q, rfl, ?_, ?_, ?_⟩ <;> simp [premiumCollectedSum, premiumPaidSum, commissionsSum]
  | cons tx rest ih =>
    intro q
    have htx := hall tx (List.mem_cons_self tx rest)
    have hrest : ∀ t ∈ rest, t.PositionID = pid ∧
        (t.Action = "Sell to Open" ∨ t.Action = "Buy to Close") :=
      fun t ht => hall t (List.mem_cons_of_mem tx ht)
    obtain ⟨q', hq', hpc, hpp, hcm⟩ := ih hrest (stepOption cb q tx)
    refine ⟨q', ?_, ?_, ?_, ?_⟩
    · rw [List.foldl_cons, processOptionTx_singleton cb pid q tx hpid htx.1]
      exact hq'
    · rw [hpc, premiumCollectedSum_cons]
      rcases htx.2 with ha | ha
      · rw [(stepOption_sto cb q tx ha).1, if_pos ha]
        ring
      · have hne : ¬ tx.Action = "Sell to Open" := by rw [ha]; decide
        rw [(stepOption_btc cb q tx ha).1, if_neg hne]
        ring
    · rw [hpp, premiumPaidSum_cons]
      rcases htx.2 with ha | ha
      · have hne : ¬ tx.Action = "Buy to Close" := by rw [ha]; decide
        rw [(stepOption_sto cb q tx ha).2.1, if_neg hne]
        ring
      · rw [(stepOption_btc cb q tx ha).2.1, if_pos ha]
        ring
    · rw [hcm, commissionsSum_cons]
      rcases htx.2 with ha | ha
      · rw [(stepOption_sto cb q tx ha).2.2]
        ring
      · rw [(stepOption_btc cb q tx ha).2.2]
        ring

/-- `finalizeMetrics` only fills in derived metrics: the identifying and
premium-accumulation fields are unchanged, and `NetPremium` becomes
collected − paid − commissions. -/
theorem finalizeMetrics_spec (p : OptionPosition) :
    (finalizeMetrics p).PremiumCollected = p.PremiumCollected ∧
    (finalizeMetrics p).PremiumPaid = p.PremiumPaid ∧
    (finalizeMetrics p).Commissions = p.Commissions ∧
    (finalizeMetrics p).NetPremium = p.PremiumCollected - p.PremiumPaid - p.Commissions ∧
    (finalizeMetrics p).OpenDate = p.OpenDate ∧
    (finalizeMetrics p).CloseDate = p.CloseDate ∧
    (finalizeMetrics p).Expiry = p.Expiry ∧
    (finalizeMetrics p).Status = p.Status ∧
    (finalizeMetrics p).Capital = p.Capital := by
  rw [finalizeMetrics, metricsNet, metricsDaysHeld]
  split_ifs <;>
    (rw [metricsDaysToExpiry]; split_ifs <;>
      (rw [metricsReturns]; split_ifs <;>
        exact ⟨rfl, rfl, rfl, rfl, rfl, rfl, rfl, rfl, rfl⟩))

/-- The lazy expiry check with a parseable expiry on a still-open position:
reclassify exactly when `now` is strictly past the expiry. -/
theorem applyLazyExpiry_eq_of_some (now : ℚ) (p : OptionPosition) (e : ℤ)
    (hs : p.Status = "Open" ∧ p.CloseDate = "") (hp : parseDate p.Expiry = some e) :
    applyLazyExpiry now p =
      (if (e : ℚ) < now then { p with Status := "Expired", CloseDate := p.Expiry } else p) := by
  rw [applyLazyExpiry, if_pos hs, hp]

theorem applyLazyExpiry_eq_of_none (now : ℚ) (p : OptionPosition)
    (hs : p.Status = "Open" ∧ p.CloseDate = "") (hp : parseDate p.Expiry = none) :
    applyLazyExpiry now p = p := by
  rw [applyLazyExpiry, if_pos hs, hp]

theorem applyLazyExpiry_eq_of_not (now : ℚ) (p : OptionPosition)
    (hs : ¬ (p.Status = "Open" ∧ p.CloseDate = "")) :
    applyLazyExpiry now p = p := by
  rw [applyLazyExpiry, if_neg hs]

/-- The lazy expiry projection returns the position unchanged or with only
`Status`/`CloseDate` replaced. -/
theorem applyLazyExpiry_eq_or (now : ℚ) (p : OptionPosition) :
    applyLazyExpiry now p = p ∨
    applyLazyExpiry now p = { p with Status := "Expired", CloseDate := p.Expiry } := by
  by_cases hs : p.Status = "Open" ∧ p.CloseDate = ""
  · rcases hp : parseDate p.Expiry with _ | e
    · exact Or.inl (applyLazyExpiry_eq_of_none now p hs hp)
    · rw [applyLazyExpiry_eq_of_some now p e hs hp]
      by_cases hlt : (e : ℚ) < now
      · exact Or.inr (by rw [if_pos hlt])
      · exact Or.inl (by rw [if_neg hlt])
  · exact Or.inl (applyLazyExpiry_eq_of_not now p hs)

/-- The lazy expiry projection touches only `Status` and `CloseDate`. -/
theorem applyLazyExpiry_frame (now : ℚ) (p : OptionPosition) :
    (applyLazyExpiry now p).PremiumCollected = p.PremiumCollected ∧
    (applyLazyExpiry now p).PremiumPaid = p.PremiumPaid ∧
    (applyLazyExpiry now p).Commissions = p.Commissions ∧
    (applyLazyExpiry now p).NetPremium = p.NetPremium ∧
    (applyLazyExpiry now p).OpenDate = p.OpenDate ∧
    (applyLazyExpiry now p).Expiry = p.Expiry ∧
    (applyLazyExpiry now p).DaysHeld = p.DaysHeld ∧
    (applyLazyExpiry now p).DaysToExpiry = p.DaysToExpiry ∧
    (applyLazyExpiry now p).Capital = p.Capital ∧
    (applyLazyExpiry now p).PercentReturn = p.PercentReturn ∧
    (applyLazyExpiry now p).AnnualizedReturn = p.AnnualizedReturn := by
  rcases applyLazyExpiry_eq_or now p with h | h <;> rw [h] <;>
    exact ⟨rfl, rfl, rfl, rfl, rfl, rfl, rfl, rfl, rfl, rfl, rfl⟩

/-- The first transaction of a fresh id creates and immediately steps a new
position, so a one-id transaction list aggregates to a single position whose
premium fields are the leg sums. -/
theorem optFold_from_empty (cb : List (String × ℚ)) (pid : String) (hpid : pid ≠ "")
    (txs : List OptionTransaction) (hne : txs ≠ [])
    (hall : ∀ tx ∈ txs, tx.PositionID = pid ∧
      (tx.Action = "Sell to Open" ∨ tx.Action = "Buy to Close")) :
    ∃ q', txs.foldl (processOptionTx cb) [] = [(pid, q')] ∧
      q'.PremiumCollected = premiumCollectedSum txs ∧
      q'.PremiumPaid = premiumPaidSum txs ∧
      q'.Commissions = commissionsSum txs := by
  rcases txs with _ | ⟨t, rest⟩
  · exact absurd rfl hne
  have ht := hall t (List.mem_cons_self t rest)
  have hrest : ∀ tx ∈ rest, tx.PositionID = pid ∧
      (tx.Action = "Sell to Open" ∨ tx.Action = "Buy to Close") :=
    fun tx htx => hall tx (List.mem_cons_of_mem t htx)
  have hfirst : processOptionTx cb [] t = [(pid, stepOption cb (newOptionPos t) t)] := by
    rw [processOptionTx, ht.1, if_neg hpid]
    rw [show lookupPos [] pid = none from rfl]
    simp [ht.1]
  obtain ⟨q', hq', hpc, hpp, hcm⟩ :=
    optFold_singleton cb pid hpid rest hrest (stepOption cb (newOptionPos t) t)
  refine ⟨q', ?_, ?_, ?_, ?_⟩
  · rw [List.foldl_cons, hfirst]
    exact hq'
  · rw [hpc, premiumCollectedSum_cons]
    rcases ht.2 with ha | ha
    · rw [(stepOption_sto cb (newOptionPos t) t ha).1, if_pos ha]
      simp [newOptionPos]
    · have hne2 : ¬ t.Action = "Sell to Open" := by rw [ha]; decide
      rw [(stepOption_btc cb (newOptionPos t) t ha).1, if_neg hne2]
      simp [newOptionPos]
  · rw [hpp, premiumPaidSum_cons]
    rcases ht.2 with ha | ha
    · have hne2 : ¬ t.Action = "Buy to Close" := by rw [ha]; decide
      rw [(stepOption_sto cb (newOptionPos t) t ha).2.1, if_neg hne2]
      simp [newOptionPos]
    · rw [(stepOption_btc cb (newOptionPos t) t ha).2.1, if_pos ha]
      simp [newOptionPos]
  · rw [hcm, commissionsSum_cons]
    rcases ht.2 with ha | ha
    · rw [(stepOption_sto cb (newOptionPos t) t ha).2.2]
      simp [newOptionPos]
    · rw [(stepOption_btc cb (newOptionPos t) t ha).2.2]
      simp [newOptionPos]

/-- One-id, two-action transaction lists produce exactly one position whose
premium decomposition is the leg sums. -/
theorem calcOptionPositions_single (stockTxs : List StockTransaction) (now : ℚ)
    (txs : List OptionTransaction) (pid : String) (hpid : pid ≠ "") (hne : txs ≠ [])
    (hall : ∀ tx ∈ txs, tx.PositionID = pid ∧
      (tx.Action = "Sell to Open" ∨ tx.Action = "Buy to Close")) :
    ∃ p, CalculateOptionPositions stockTxs now txs = [p] ∧
      p.PremiumCollected = premiumCollectedSum txs ∧
      p.PremiumPaid = premiumPaidSum txs ∧
      p.Commissions = commissionsSum txs ∧
      p.NetPremium = premiumCollectedSum txs - premiumPaidSum txs - commissionsSum txs := by
  obtain ⟨q', hq', hpc, hpp, hcm⟩ :=
    optFold_from_empty (calculateStockCostBasisAtDate stockTxs) pid hpid txs hne hall
  refine ⟨applyLazyExpiry now (finalizeMetrics q'), ?_, ?_, ?_, ?_, ?_⟩
  · rw [CalculateOptionPositions, calcOptionPositionsPre, hq']
    rfl
  · rw [(applyLazyExpiry_frame now (finalizeMetrics q')).1, (finalizeMetrics_spec q').1, hpc]
  · rw [(applyLazyExpiry_frame now (finalizeMetrics q')).2.1,
      (finalizeMetrics_spec q').2.1, hpp]
  · rw [(applyLazyExpiry_frame now (finalizeMetrics q')).2.2.1,
      (finalizeMetrics_spec q').2.2.1, hcm]
  · rw [(applyLazyExpiry_frame now (finalizeMetrics q')).2.2.2.1,
      (finalizeMetrics_spec q').2.2.2.1, hpc, hpp, hcm]

theorem premiumCollectedSum_perm {txs txs' : List OptionTransaction} (h : txs.Perm txs') :
    premiumCollectedSum txs = premiumCollectedSum txs' :=
  ((h.filter _).map _).sum_eq

theorem premiumPaidSum_perm {txs txs' : List OptionTransaction} (h : txs.Perm txs') :
    premiumPaidSum txs = premiumPaidSum txs' :=
  ((h.filter _).map _).sum_eq

theorem commissionsSum_perm {txs txs' : List OptionTransaction} (h : txs.Perm txs') :
    commissionsSum txs = commissionsSum txs' :=
  (h.map _).sum_eq

/-- C4.  For option transactions sharing one position id (the open/close legs),
the aggregated position's net premium is `PremiumCollected − PremiumPaid −
Commissions`, with commissions subtracted once, and the net premium is
invariant under permuting the order in which the legs are supplied. -/
theorem option_net_premium_perm (stockTxs : List StockTransaction) (now : ℚ)
    (txs txs' : List OptionTransaction) (pid : String) (hpid : pid ≠ "")
    (hall : ∀ tx ∈ txs, tx.PositionID = pid ∧
      (tx.Action = "Sell to Open" ∨ tx.Action = "Buy to Close"))
    (hne : txs ≠ []) (hperm : txs.Perm txs') :
    ∃ p p', CalculateOptionPositions stockTxs now txs = [p] ∧
      CalculateOptionPositions stockTxs now txs' = [p'] ∧
      p.NetPremium = p.PremiumCollected - p.PremiumPaid - p.Commissions ∧
      p'.NetPremium = p'.PremiumCollected - p'.PremiumPaid - p'.Commissions ∧
      p'.NetPremium = p.NetPremium := by
  have hall' : ∀ tx ∈ txs', tx.PositionID = pid ∧
      (tx.Action = "Sell to Open" ∨ tx.Action = "Buy to Close") :=
    fun tx htx => hall tx (hperm.mem_iff.mpr htx)
  have hne' : txs' ≠ [] := by
    intro hnil
    exact hne (List.Perm.eq_nil (hnil ▸ hperm))
  obtain ⟨p, hp, hpc, hpp, hcm, hnet⟩ :=
    calcOptionPositions_single stockTxs now txs pid hpid hne hall
  obtain ⟨p', hp', hpc', hpp', hcm', hnet'⟩ :=
    calcOptionPositions_single stockTxs now txs' pid hpid hne' hall'
  refine ⟨p, p', hp, hp', ?_, ?_, ?_⟩
  · rw [hnet, hpc, hpp, hcm]
  · rw [hnet', hpc', hpp', hcm']
  · rw [hnet, hnet', premiumCollectedSum_perm hperm, premiumPaidSum_perm hperm,
      commissionsSum_perm hperm]

def exC4sto : OptionTransaction :=
  ⟨"2025-01-02", "Sell to Open", "AAPL", "Put", 100, "2025-01-31", 1, 250, 0, 1, "P1", ""⟩

def exC4btc : OptionTransaction :=
  ⟨"2025-01-20", "Buy to Close", "AAPL", "Put", 100, "2025-01-31", 1, -50, 0, 1, "P1", ""⟩

/-- C4, instantiated on a concrete open/close pair supplied in both orders. -/
theorem option_net_premium_perm_witness :
    ∃ p p', CalculateOptionPositions [] 20200 [exC4sto, exC4btc] = [p] ∧
      CalculateOptionPositions [] 20200 [exC4btc, exC4sto] = [p'] ∧
      p.NetPremium = p.PremiumCollected - p.PremiumPaid - p.Commissions ∧
      p'.NetPremium = p'.PremiumCollected - p'.PremiumPaid - p'.Commissions ∧
      p'.NetPremium = p.NetPremium :=
  option_net_premium_perm [] 20200 [exC4sto, exC4btc] [exC4btc, exC4sto] "P1"
    (by decide)
    (by
      intro tx htx
      rcases List.mem_cons.mp htx with rfl | htx2
      · exact ⟨rfl, Or.inl rfl⟩
      · obtain rfl := List.mem_singleton.mp htx2
        exact ⟨rfl, Or.inr rfl⟩)
    (List.cons_ne_nil _ _) (List.Perm.swap exC4btc exC4sto [])

/-! ### Frame lemmas through the metrics stages -/

theorem metricsNet_frame (p : OptionPosition) :
    (metricsNet p).OpenDate = p.OpenDate ∧ (metricsNet p).Expiry = p.Expiry ∧
    (metricsNet p).CloseDate = p.CloseDate ∧ (metricsNet p).Capital = p.Capital ∧
    (metricsNet p).DaysToExpiry = p.DaysToExpiry ∧ (metricsNet p).DaysHeld = p.DaysHeld :=
  ⟨rfl, rfl, rfl, rfl, rfl, rfl⟩

theorem metricsDaysHeld_frame (p : OptionPosition) :
    (metricsDaysHeld p).OpenDate = p.OpenDate ∧ (metricsDaysHeld p).Expiry = p.Expiry ∧
    (metricsDaysHeld p).CloseDate = p.CloseDate ∧ (metricsDaysHeld p).Capital = p.Capital ∧
    (metricsDaysHeld p).DaysToExpiry = p.DaysToExpiry ∧
    (metricsDaysHeld p).NetPremium = p.NetPremium := by
  rw [metricsDaysHeld]
  split_ifs <;> exact ⟨rfl, rfl, rfl, rfl, rfl, rfl⟩

theorem metricsDaysHeld_of_closeEmpty (p : OptionPosition) (hc : p.CloseDate = "") :
    metricsDaysHeld p = p := by
  rw [metricsDaysHeld, if_neg]
  rintro ⟨-, hne⟩
  exact hne hc

theorem metricsDaysToExpiry_frame (p : OptionPosition) :
    (metricsDaysToExpiry p).OpenDate = p.OpenDate ∧ (metricsDaysToExpiry p).Expiry = p.Expiry ∧
    (metricsDaysToExpiry p).CloseDate = p.CloseDate ∧
    (metricsDaysToExpiry p).Capital = p.Capital ∧
    (metricsDaysToExpiry p).DaysHeld = p.DaysHeld ∧
    (metricsDaysToExpiry p).NetPremium = p.NetPremium := by
  rw [metricsDaysToExpiry]
  split_ifs <;> exact ⟨rfl, rfl, rfl, rfl, rfl, rfl⟩

theorem metricsDaysToExpiry_dte (p : OptionPosition) (ho : p.OpenDate ≠ "")
    (he : p.Expiry ≠ "") :
    (metricsDaysToExpiry p).DaysToExpiry =
      if parseDateD p.Expiry - parseDateD p.OpenDate < 1 then 1
      else parseDateD p.Expiry - parseDateD p.OpenDate := by
  rw [metricsDaysToExpiry, if_pos ⟨ho, he⟩]

theorem metricsReturns_frame (p : OptionPosition) :
    (metricsReturns p).OpenDate = p.OpenDate ∧ (metricsReturns p).Expiry = p.Expiry ∧
    (metricsReturns p).CloseDate = p.CloseDate ∧ (metricsReturns p).Capital = p.Capital ∧
    (metricsReturns p).DaysToExpiry = p.DaysToExpiry ∧
    (metricsReturns p).DaysHeld = p.DaysHeld ∧
    (metricsReturns p).NetPremium = p.NetPremium := by
  rw [metricsReturns]
  split_ifs <;> exact ⟨rfl, rfl, rfl, rfl, rfl, rfl, rfl⟩

theorem metricsReturns_annualized (p : OptionPosition) (hcap : 0 < p.Capital)
    (hdte : 0 < p.DaysToExpiry) :
    (metricsReturns p).AnnualizedReturn =
      (metricsReturns p).PercentReturn / ((metricsReturns p).DaysToExpiry : ℚ) * 365 := by
  rw [metricsReturns, if_pos hcap, if_pos hdte]

/-! ### The aggregation fold never touches `DaysHeld` -/

theorem stepOption_daysHeld (cb : List (String × ℚ)) (p : OptionPosition)
    (tx : OptionTransaction) : (stepOption cb p tx).DaysHeld = p.DaysHeld := by
  rw [stepOption]
  split_ifs <;> rfl

theorem lookupPos_mem (st : PosMap) (k : String) (p : OptionPosition)
    (h : lookupPos st k = some p) : (k, p) ∈ st := by
  induction st with
  | nil => simp [lookupPos] at h
  | cons e rest ih =>
    obtain ⟨k', v⟩ := e
    by_cases hk : k' = k
    · subst hk
      rw [lookupPos, if_pos rfl] at h
      cases h
      exact List.mem_cons_self _ _
    · rw [lookupPos, if_neg hk] at h
      exact List.mem_cons_of_mem _ (ih h)

theorem mem_storePos (st : PosMap) (k : String) (v : OptionPosition)
    (e : String × OptionPosition) (h : e ∈ storePos st k v) : e ∈ st ∨ e = (k, v) := by
  induction st with
  | nil => simpa [storePos] using h
  | cons kv rest ih =>
    obtain ⟨k', w⟩ := kv
    by_cases hk : k' = k
    · subst hk
      rw [storePos, if_pos rfl] at h
      rcases List.mem_cons.mp h with h | h
      · exact Or.inr (by simpa using h)
      · exact Or.inl (List.mem_cons_of_mem _ h)
    · rw [storePos, if_neg hk] at h
      rcases List.mem_cons.mp h with h | h
      · exact Or.inl (by simp [h])
      · rcases ih h with h | h
        · exact Or.inl (List.mem_cons_of_mem _ h)
        · exact Or.inr h

theorem optFold_daysHeld (cb : List (String × ℚ)) (txs : List OptionTransaction) :
    ∀ st : PosMap, (∀ kv ∈ st, kv.2.DaysHeld = 0) →
      ∀ kv ∈ txs.foldl (processOptionTx cb) st, kv.2.DaysHeld = 0 := by
  induction txs with
  | nil => intro st h; simpa using h
  | cons tx rest ih =>
    intro st h
    refine ih (processOptionTx cb st tx) ?_
    intro kv hkv
    rw [processOptionTx] at hkv
    by_cases hid : tx.PositionID = ""
    · rw [if_pos hid] at hkv
      exact h kv hkv
    · rw [if_neg hid] at hkv
      rcases hl : lookupPos st tx.PositionID with _ | p
      · rw [hl] at hkv
        rcases List.mem_append.mp hkv with hkv | hkv
        · exact h kv hkv
        · have : kv = (tx.PositionID, stepOption cb (newOptionPos tx) tx) := by simpa using hkv
          rw [this]
          rw [stepOption_daysHeld]
          rfl
      · rw [hl] at hkv
        rcases mem_storePos st tx.PositionID (stepOption cb p tx) kv hkv with hkv | hkv
        · exact h kv hkv
        · rw [hkv]
          rw [stepOption_daysHeld]
          exact h (tx.PositionID, p) (lookupPos_mem st tx.PositionID p hl)

/-- A position of the pre-lazy projection with no close date has `DaysHeld`
still 0: it was never computed. -/
theorem pre_daysHeld_zero (stockTxs : List StockTransaction) (txs : List OptionTransaction)
    (q : OptionPosition) (hq : q ∈ calcOptionPositionsPre stockTxs txs)
    (hc : q.CloseDate = "") : q.DaysHeld = 0 := by
  rw [calcOptionPositionsPre] at hq
  rcases List.mem_map.mp hq with ⟨kv, hkv, hfin⟩
  have hr : kv.2.DaysHeld = 0 :=
    optFold_daysHeld (calculateStockCostBasisAtDate stockTxs) txs [] (by simp) kv hkv
  have hcq : kv.2.CloseDate = "" := by
    have := (finalizeMetrics_spec kv.2).2.2.2.2.2.1
    rw [hfin] at this
    rw [← this, hc]
  subst hfin
  rw [finalizeMetrics, metricsDaysHeld_of_closeEmpty _ (by
    rw [(metricsNet_frame kv.2).2.2.1, hcq])]
  rw [(metricsReturns_frame _).2.2.2.2.2.1, (metricsDaysToExpiry_frame _).2.2.2.2.1]
  exact hr

/-- C5.  Lazy expiry projection: a position of the pre-lazy projection that is
still Open with no recorded close and a parseable expiry is reported by
`CalculateOptionPositions` as Expired with close date equal to the expiry
exactly when the evaluation time is strictly past the expiry; otherwise it is
reported unchanged (still Open).  The input transactions are not modified:
the reclassification is a projection applied at read time. -/
theorem lazy_expiry_projection (stockTxs : List StockTransaction) (now : ℚ)
    (txs : List OptionTransaction) (q : OptionPosition) (e : ℤ)
    (hq : q ∈ calcOptionPositionsPre stockTxs txs) (hs : q.Status = "Open")
    (hc : q.CloseDate = "") (he : parseDate q.Expiry = some e) :
    applyLazyExpiry now q ∈ CalculateOptionPositions stockTxs now txs ∧
    ((e : ℚ) < now →
      applyLazyExpiry now q = { q with Status := "Expired", CloseDate := q.Expiry }) ∧
    (¬ (e : ℚ) < now → applyLazyExpiry now q = q) := by
  refine ⟨List.mem_map_of_mem _ hq, ?_, ?_⟩
  · intro hlt
    rw [applyLazyExpiry_eq_of_some now q e ⟨hs, hc⟩ he, if_pos hlt]
  · intro hlt
    rw [applyLazyExpiry_eq_of_some now q e ⟨hs, hc⟩ he, if_neg hlt]

def oC5 : OptionTransaction :=
  ⟨"2025-01-02", "Sell to Open", "MSFT", "Put", 100, "2025-01-31", 1, 250, 0, 1, "P5", ""⟩

def exC5 : List OptionTransaction := [oC5]

def qC5 : OptionPosition :=
  finalizeMetrics (stepOption (calculateStockCostBasisAtDate []) (newOptionPos oC5) oC5)

/-- C5, instantiated: one open put, evaluated after its expiry. -/
theorem lazy_expiry_projection_witness :
    applyLazyExpiry 20200 qC5 ∈ CalculateOptionPositions [] 20200 exC5 ∧
    (((20119 : ℤ) : ℚ) < 20200 →
      applyLazyExpiry 20200 qC5 = { qC5 with Status := "Expired", CloseDate := qC5.Expiry }) ∧
    (¬ ((20119 : ℤ) : ℚ) < 20200 → applyLazyExpiry 20200 qC5 = qC5) :=
  lazy_expiry_projection [] 20200 exC5 qC5 20119
    (by
      rw [show calcOptionPositionsPre [] exC5 = [qC5] from by with_unfolding_all rfl]
      exact List.mem_singleton_self qC5)
    (by with_unfolding_all rfl)
    (by with_unfolding_all rfl)
    (by with_unfolding_all rfl)

/-- C10.  Frame of the lazy reclassification: when it fires, only `Status` and
`CloseDate` change; `DaysHeld` is still 0 (it was computed while the close
date was empty and is not recomputed from the assigned expiry close date), and
`NetPremium`, `PercentReturn` and `AnnualizedReturn` are unchanged. -/
theorem lazy_expiry_frame_props (stockTxs : List StockTransaction) (now : ℚ)
    (txs : List OptionTransaction) (q : OptionPosition) (e : ℤ)
    (hq : q ∈ calcOptionPositionsPre stockTxs txs) (hs : q.Status = "Open")
    (hc : q.CloseDate = "") (he : parseDate q.Expiry = some e) (hlt : (e : ℚ) < now) :
    applyLazyExpiry now q = { q with Status := "Expired", CloseDate := q.Expiry } ∧
    (applyLazyExpiry now q).DaysHeld = 0 ∧
    (applyLazyExpiry now q).NetPremium = q.NetPremium ∧
    (applyLazyExpiry now q).PercentReturn = q.PercentReturn ∧
    (applyLazyExpiry now q).AnnualizedReturn = q.AnnualizedReturn := by
  have heq : applyLazyExpiry now q = { q with Status := "Expired", CloseDate := q.Expiry } := by
    rw [applyLazyExpiry_eq_of_some now q e ⟨hs, hc⟩ he, if_pos hlt]
  have hdh : q.DaysHeld = 0 := pre_daysHeld_zero stockTxs txs q hq hc
  refine ⟨heq, ?_, ?_, ?_, ?_⟩
  · rw [heq]; exact hdh
  · rw [heq]
  · rw [heq]
  · rw [heq]

def oC10 : OptionTransaction :=
  ⟨"2025-02-03", "Sell to Open", "NVDA", "Call", 120, "2025-02-21", 2, 300, 130, 2, "P10", ""⟩

def exC10 : List OptionTransaction := [oC10]

def qC10 : OptionPosition :=
  finalizeMetrics (stepOption (calculateStockCostBasisAtDate []) (newOptionPos oC10) oC10)

/-- C10, instantiated: an open covered call evaluated after its expiry
(2025-02-21 is day 20140). -/
theorem lazy_expiry_frame_props_witness :
    applyLazyExpiry 20200 qC10 = { qC10 with Status := "Expired", CloseDate := qC10.Expiry } ∧
    (applyLazyExpiry 20200 qC10).DaysHeld = 0 ∧
    (applyLazyExpiry 20200 qC10).NetPremium = qC10.NetPremium ∧
    (applyLazyExpiry 20200 qC10).PercentReturn = qC10.PercentReturn ∧
    (applyLazyExpiry 20200 qC10).AnnualizedReturn = qC10.AnnualizedReturn :=
  lazy_expiry_frame_props [] 20200 exC10 qC10 20140
    (by
      rw [show calcOptionPositionsPre [] exC10 = [qC10] from by with_unfolding_all rfl]
      exact List.mem_singleton_self qC10)
    (by with_unfolding_all rfl)
    (by with_unfolding_all rfl)
    (by with_unfolding_all rfl)
    (by norm_num)

/-- C8.  The days-to-expiry floor: any reported position with an open date and
an expiry has `DaysToExpiry ≥ 1`; when the computed day difference is zero or
negative it is exactly 1, and the annualized-return formula divides by this
floored (hence nonzero) value whenever capital is positive. -/
theorem days_to_expiry_floor (stockTxs : List StockTransaction) (now : ℚ)
    (txs : List OptionTransaction) (p : OptionPosition)
    (hp : p ∈ CalculateOptionPositions stockTxs now txs)
    (ho : p.OpenDate ≠ "") (he : p.Expiry ≠ "") :
    1 ≤ p.DaysToExpiry ∧
    (parseDateD p.Expiry - parseDateD p.OpenDate ≤ 0 → p.DaysToExpiry = 1) ∧
    (0 < p.Capital → p.AnnualizedReturn = p.PercentReturn / (p.DaysToExpiry : ℚ) * 365) := by
  rw [CalculateOptionPositions] at hp
  rcases List.mem_map.mp hp with ⟨q, hq, hlazy⟩
  rw [calcOptionPositionsPre] at hq
  rcases List.mem_map.mp hq with ⟨kv, _, hfin⟩
  -- Transport the date fields down to the input of the days-to-expiry stage.
  have hlframe := applyLazyExpiry_frame now q
  have hoq : q.OpenDate = p.OpenDate := by rw [← hlazy]; exact (hlframe.2.2.2.2.1).symm
  have heq : q.Expiry = p.Expiry := by rw [← hlazy]; exact (hlframe.2.2.2.2.2.1).symm
  have hdteq : q.DaysToExpiry = p.DaysToExpiry := by
    rw [← hlazy]; exact (hlframe.2.2.2.2.2.2.2.1).symm
  have hcapq : q.Capital = p.Capital := by
    rw [← hlazy]; exact (hlframe.2.2.2.2.2.2.2.2.1).symm
  have hprq : q.PercentReturn = p.PercentReturn := by
    rw [← hlazy]; exact (hlframe.2.2.2.2.2.2.2.2.2.1).symm
  have harq : q.AnnualizedReturn = p.AnnualizedReturn := by
    rw [← hlazy]; exact (hlframe.2.2.2.2.2.2.2.2.2.2).symm
  set r := metricsDaysHeld (metricsNet kv.2) with hr
  have hq3 : q = metricsReturns (metricsDaysToExpiry r) := by
    rw [← hfin, finalizeMetrics]
  have hro : r.OpenDate = p.OpenDate := by
    rw [← hoq, hq3, (metricsReturns_frame _).1, (metricsDaysToExpiry_frame _).1]
  have hre : r.Expiry = p.Expiry := by
    rw [← heq, hq3, (metricsReturns_frame _).2.1, (metricsDaysToExpiry_frame _).2.1]
  have hdte : p.DaysToExpiry =
      if parseDateD p.Expiry - parseDateD p.OpenDate < 1 then 1
      else parseDateD p.Expiry - parseDateD p.OpenDate := by
    rw [← hdteq, hq3, (metricsReturns_frame _).2.2.2.2.1,
      metricsDaysToExpiry_dte r (by rw [hro]; exact ho) (by rw [hre]; exact he), hro, hre]
  refine ⟨?_, ?_, ?_⟩
  · rw [hdte]
    split_ifs with h
    · exact le_refl 1
    · omega
  · intro hle
    rw [hdte, if_pos (by omega)]
  · intro hcap
    have hq3cap : 0 < (metricsDaysToExpiry r).Capital := by
      have h1 : q.Capital = (metricsDaysToExpiry r).Capital := by
        rw [hq3]; exact (metricsReturns_frame _).2.2.2.1
      rw [← h1, hcapq]
      exact hcap
    have hq3dte : 0 < (metricsDaysToExpiry r).DaysToExpiry := by
      have h1 : q.DaysToExpiry = (metricsDaysToExpiry r).DaysToExpiry := by
        rw [hq3]; exact (metricsReturns_frame _).2.2.2.2.1
      have h2 : (1 : ℤ) ≤ p.DaysToExpiry := by
        rw [hdte]; split_ifs <;> omega
      rw [← h1, hdteq]
      omega
    have := metricsReturns_annualized (metricsDaysToExpiry r) hq3cap hq3dte
    rw [← hq3] at this
    rw [← harq, ← hprq, ← hdteq]
    exact this

def oC8 : OptionTransaction :=
  ⟨"2025-01-31", "Sell to Open", "T", "Put", 50, "2025-01-31", 1, 10, 0, 0, "P8", ""⟩

def exC8 : List OptionTransaction := [oC8]

def pC8 : OptionPosition :=
  applyLazyExpiry 20200
    (finalizeMetrics (stepOption (calculateStockCostBasisAtDate []) (newOptionPos oC8) oC8))

/-- C8, instantiated: a put whose open date equals its expiry date. -/
theorem days_to_expiry_floor_witness :
    1 ≤ pC8.DaysToExpiry ∧
    (parseDateD pC8.Expiry - parseDateD pC8.OpenDate ≤ 0 → pC8.DaysToExpiry = 1) ∧
    (0 < pC8.Capital → pC8.AnnualizedReturn = pC8.PercentReturn / (pC8.DaysToExpiry : ℚ) * 365) :=
  days_to_expiry_floor [] 20200 exC8 pC8
    (by
      rw [show CalculateOptionPositions [] 20200 exC8 = [pC8] from by with_unfolding_all rfl]
      exact List.mem_singleton_self pC8)
    (by with_unfolding_all decide)
    (by with_unfolding_all decide)

/-! ## C7: portfolio value decomposition -/

theorem optLoopStatus_totalPremiums (acc : AnalyticsAcc) (pos : OptionPosition) :
    (optLoopStatus acc pos).TotalPremiums = acc.TotalPremiums := by
  rw [optLoopStatus]
  split_ifs <;> rfl

theorem optLoopPremium_totalPremiums (acc : AnalyticsAcc) (pos : OptionPosition) :
    (optLoopPremium acc pos).TotalPremiums =
      acc.TotalPremiums + (if 0 < pos.NetPremium then pos.NetPremium else 0) := by
  rw [optLoopPremium]
  split_ifs <;> simp

theorem optLoopCapital_totalPremiums (acc : AnalyticsAcc) (pos : OptionPosition) :
    (optLoopCapital acc pos).TotalPremiums = acc.TotalPremiums := by
  rw [optLoopCapital]
  split_ifs <;> rfl

theorem optLoopReturns_totalPremiums (acc : AnalyticsAcc) (pos : OptionPosition) :
    (optLoopReturns acc pos).TotalPremiums = acc.TotalPremiums := by
  rw [optLoopReturns]
  split_ifs <;> rfl

theorem optLoopEarliest_totalPremiums (acc : AnalyticsAcc) (pos : OptionPosition) :
    (optLoopEarliest acc pos).TotalPremiums = acc.TotalPremiums := by
  rcases hp : parseDate pos.OpenDate with _ | d
  · simp [optLoopEarliest, hp]
  · rcases he : acc.earliestDate with _ | e
    · simp [optLoopEarliest, hp, he]
    · by_cases h : d < e
      · simp [optLoopEarliest, hp, he, h]
      · simp [optLoopEarliest, hp, he, h]

theorem optLoopStep_totalPremiums (acc : AnalyticsAcc) (pos : OptionPosition) :
    (optLoopStep acc pos).TotalPremiums =
      acc.TotalPremiums + (if 0 < pos.NetPremium then pos.NetPremium else 0) := by
  rw [optLoopStep, optLoopEarliest_totalPremiums, optLoopReturns_totalPremiums,
    optLoopCapital_totalPremiums, optLoopPremium_totalPremiums, optLoopStatus_totalPremiums]

theorem optLoop_totalPremiums (l : List OptionPosition) :
    ∀ acc : AnalyticsAcc,
      (l.foldl optLoopStep acc).TotalPremiums =
        acc.TotalPremiums +
          ((l.filter (fun p => decide (0 < p.NetPremium))).map (·.NetPremium)).sum := by
  induction l with
  | nil => intro acc; simp
  | cons pos rest ih =>
    intro acc
    rw [List.foldl_cons, ih (optLoopStep acc pos), optLoopStep_totalPremiums]
    by_cases h : 0 < pos.NetPremium
    · simp [List.filter_cons, h]
      ring
    · simp [List.filter_cons, h]

/-- C7.  Portfolio value decomposition with positive-only premiums:
`TotalPortfolioValue = TotalDeposits + TotalPremiums + TotalStockProfitLoss`,
where `TotalPremiums` sums `NetPremium` over exactly those option positions
with strictly positive net premium. -/
theorem portfolio_value_decomposition (transactions : List Transaction)
    (optionTxs : List OptionTransaction) (stockTransactions : List StockTransaction)
    (stockPrices : List (String × ℚ)) (now : ℚ) :
    (CalculateAnalytics transactions optionTxs stockTransactions stockPrices now).TotalPortfolioValue =
      (CalculateAnalytics transactions optionTxs stockTransactions stockPrices now).TotalDeposits +
      (CalculateAnalytics transactions optionTxs stockTransactions stockPrices now).TotalPremiums +
      (CalculateAnalytics transactions optionTxs stockTransactions stockPrices now).TotalStockProfitLoss ∧
    (CalculateAnalytics transactions optionTxs stockTransactions stockPrices now).TotalPremiums =
      (((CalculateOptionPositions stockTransactions now optionTxs).filter
          (fun p => decide (0 < p.NetPremium))).map (·.NetPremium)).sum := by
  constructor
  · rfl
  · have h : (CalculateAnalytics transactions optionTxs stockTransactions stockPrices
        now).TotalPremiums =
        ((CalculateOptionPositions stockTransactions now optionTxs).foldl
          optLoopStep accInit).TotalPremiums := rfl
    rw [h, optLoop_totalPremiums]
    simp [accInit]

/-! ## C6: TWR geometric linking -/

theorem foldl_one_add_prod (l : List ℚ) :
    ∀ a : ℚ, l.foldl (fun cumulative r => cumulative * (1 + r)) a =
      a * ((l.map (fun r => 1 + r)).prod) := by
  induction l with
  | nil => intro a; simp
  | cons x rest ih =>
    intro a
    rw [List.foldl_cons, ih (a * (1 + x)), List.map_cons, List.prod_cons]
    ring

/-- C6.  TWR geometric linking: the cumulative return is
`100 × (∏(1 + rᵢ) − 1)` over the derived sub-period returns; in particular
two sub-periods of +10% and −10% compound to −1%, not 0%. -/
theorem twr_geometric_linking (transactions : List Transaction) (pv : ℚ → ℚ) (now : ℚ) :
    CalculateTimeWeightedReturnCumulative transactions pv now =
      100 * (((derivedPeriodReturns transactions pv now).map (fun r => 1 + r)).prod - 1) ∧
    (derivedPeriodReturns transactions pv now = [1/10, -1/10] →
      CalculateTimeWeightedReturnCumulative transactions pv now = -1) := by
  have h1 : CalculateTimeWeightedReturnCumulative transactions pv now =
      100 * (((derivedPeriodReturns transactions pv now).map (fun r => 1 + r)).prod - 1) := by
    rw [CalculateTimeWeightedReturnCumulative, derivedPeriodReturns]
    split
    · norm_num
    · split
      · norm_num
      · simp only [foldl_one_add_prod]
        ring
  refine ⟨h1, ?_⟩
  intro h2
  rw [h1, h2]
  norm_num

def exC6 : List Transaction :=
  [⟨"January 11 2025", "Deposit", "$100"⟩, ⟨"January 1 2025", "Deposit", "$100"⟩]

def pvC6 : ℚ → ℚ := fun t => if t < (20099 : ℚ) then 110 else 189

/-- C6, instantiated: two deposits of $100, a +10% first period and a −10%
second period; the cumulative TWR is −1%. -/
theorem twr_geometric_linking_witness :
    derivedPeriodReturns exC6 pvC6 20130 = [1/10, -1/10] ∧
    CalculateTimeWeightedReturnCumulative exC6 pvC6 20130 = -1 :=
  ⟨by with_unfolding_all rfl,
   (twr_geometric_linking exC6 pvC6 20130).2 (by with_unfolding_all rfl)⟩

/-! ## C9: determinism of `CalculateAllPositions`

Two sources of underspecification meet in the function's tail: Go iterates
the `symbolLots` map in unspecified order when emitting the open positions,
and `sort.Slice` is an unstable sort, so the relative order of elements tied
under the comparator is unspecified too.  `calcAllPositionsRel` leaves both
open.  Ties are realizable — two closed positions of one symbol sharing an
open date compare equal both ways — so the claimed element-for-element
determinism fails (`calc_positions_order_counterexample`).  What the program
does guarantee is determinism up to that tie order: every admissible output
is a permutation of one input-determined multiset, sorted by the source
comparator's lexicographic key (symbol, open-before-closed, open date), and
when no two distinct closed positions share symbol and open date the output
is unique (`calc_positions_deterministic`), because open positions have
pairwise distinct symbols and an open position never ties a closed one. -/

/-- Open-before-closed rank of the sort comparator. -/
def posRank (p : Position) : ℕ := if p.Type' = "open" then 0 else 1

/-- The sort key of the source comparator, as a lexicographic triple. -/
def keyOf (p : Position) : String ×ₗ (ℕ ×ₗ String) :=
  toLex (p.Symbol, toLex (posRank p, p.OpenDate))

/-- Total order on positions by sort key. -/
def keyLE (p q : Position) : Prop := keyOf p ≤ keyOf q

instance : DecidableRel keyLE := fun p q => inferInstanceAs (Decidable (keyOf p ≤ keyOf q))

instance : IsTotal Position keyLE := ⟨fun a b => le_total (keyOf a) (keyOf b)⟩

instance : IsTrans Position keyLE := ⟨fun _ _ _ hab hbc => le_trans hab hbc⟩

theorem keyLE_unfold (p q : Position) :
    keyLE p q ↔ (p.Symbol < q.Symbol ∨ (p.Symbol = q.Symbol ∧
      (posRank p < posRank q ∨ (posRank p = posRank q ∧ p.OpenDate ≤ q.OpenDate)))) := by
  rw [keyLE, keyOf, keyOf, Prod.Lex.le_iff]
  constructor
  · rintro (h | ⟨h1, h2⟩)
    · exact Or.inl h
    · refine Or.inr ⟨h1, ?_⟩
      rcases (Prod.Lex.le_iff _ _).mp h2 with h3 | ⟨h3, h4⟩
      · exact Or.inl h3
      · exact Or.inr ⟨h3, h4⟩
  · rintro (h | ⟨h1, h2⟩)
    · exact Or.inl h
    · refine Or.inr ⟨h1, (Prod.Lex.le_iff _ _).mpr ?_⟩
      rcases h2 with h3 | ⟨h3, h4⟩
      · exact Or.inl h3
      · exact Or.inr ⟨h3, h4⟩

/-- On engine-emitted positions, the source comparator's non-strict order is
exactly the key order. -/
theorem posLE_iff_keyLE (p q : Position)
    (hp : p.Type' = "open" ∨ p.Type' = "closed")
    (hq : q.Type' = "open" ∨ q.Type' = "closed") :
    posLE p q ↔ keyLE p q := by
  rw [keyLE_unfold, posLE, posLtb]
  by_cases hsym : q.Symbol = p.Symbol
  · rw [if_neg (not_not_intro hsym)]
    by_cases htype : q.Type' = p.Type'
    · rw [if_neg (not_not_intro htype)]
      rw [decide_eq_false_iff_not, not_lt]
      have hrank : posRank p = posRank q := by
        rw [posRank, posRank, htype]
      constructor
      · intro h
        exact Or.inr ⟨hsym.symm, Or.inr ⟨hrank, h⟩⟩
      · rintro (h | ⟨-, h2⟩)
        · exact absurd hsym.symm (ne_of_lt h)
        · rcases h2 with h3 | ⟨-, h4⟩
          · rw [hrank] at h3
            exact absurd h3 (lt_irrefl _)
          · exact h4
    · rw [if_pos htype]
      rcases hq with hq1 | hq1
      · have hpc : p.Type' = "closed" := by
          rcases hp with h | h
          · exact absurd (by rw [hq1, h]) htype
          · exact h
        apply iff_of_false
        · rw [hq1]
          simp
        · rintro (h | ⟨-, h2⟩)
          · exact absurd hsym.symm (ne_of_lt h)
          · rcases h2 with h3 | ⟨h3, -⟩
            · simp [posRank, hq1, hpc] at h3
            · simp [posRank, hq1, hpc] at h3
      · have hpo : p.Type' = "open" := by
          rcases hp with h | h
          · exact h
          · exact absurd (by rw [hq1, h]) htype
        apply iff_of_true
        · rw [hq1]
          simp
        · exact Or.inr ⟨hsym.symm, Or.inl (by simp [posRank, hpo, hq1])⟩
  · rw [if_pos (fun h => hsym h)]
    rw [decide_eq_false_iff_not, not_lt]
    constructor
    · intro h
      exact Or.inl (lt_of_le_of_ne h (fun he => hsym he.symm))
    · rintro (h | ⟨h1, -⟩)
      · exact le_of_lt h
      · exact absurd h1.symm hsym

theorem keyOf_eq_symbol {a b : Position} (h : keyOf a = keyOf b) : a.Symbol = b.Symbol :=
  congrArg (fun x => (ofLex x).1) h

theorem keyOf_eq_rank {a b : Position} (h : keyOf a = keyOf b) : posRank a = posRank b :=
  congrArg (fun x => (ofLex (ofLex x).2).1) h

theorem keyOf_eq_openDate {a b : Position} (h : keyOf a = keyOf b) :
    a.OpenDate = b.OpenDate :=
  congrArg (fun x => (ofLex (ofLex x).2).2) h

/-! ### Comparator congruence and decomposition of the insertion sort -/

theorem orderedInsert_congr {α : Type} (r s : α → α → Prop) [DecidableRel r] [DecidableRel s]
    (a : α) (l : List α) (h : ∀ b ∈ l, r a b ↔ s a b) :
    l.orderedInsert r a = l.orderedInsert s a := by
  induction l with
  | nil => rfl
  | cons b t ih =>
    rw [List.orderedInsert, List.orderedInsert]
    by_cases hr : r a b
    · rw [if_pos hr, if_pos ((h b (List.mem_cons_self b t)).mp hr)]
    · rw [if_neg hr, if_neg (fun hs => hr ((h b (List.mem_cons_self b t)).mpr hs)),
        ih (fun c hc => h c (List.mem_cons_of_mem b hc))]

theorem insertionSort_congr {α : Type} (r s : α → α → Prop) [DecidableRel r] [DecidableRel s]
    (l : List α) (h : ∀ a ∈ l, ∀ b ∈ l, r a b ↔ s a b) :
    l.insertionSort r = l.insertionSort s := by
  induction l with
  | nil => rfl
  | cons a t ih =>
    rw [List.insertionSort, List.insertionSort,
      ih (fun x hx y hy => h x (List.mem_cons_of_mem a hx) y (List.mem_cons_of_mem a hy))]
    refine orderedInsert_congr r s a _ (fun b hb => ?_)
    exact h a (List.mem_cons_self a t) b
      (List.mem_cons_of_mem a ((List.mem_insertionSort s).mp hb))

theorem insertionSort_append_foldr {α : Type} (r : α → α → Prop) [DecidableRel r]
    (l₁ l₂ : List α) :
    (l₁ ++ l₂).insertionSort r =
      l₁.foldr (fun a acc => acc.orderedInsert r a) (l₂.insertionSort r) := by
  induction l₁ with
  | nil => rfl
  | cons a t ih =>
    rw [List.cons_append, List.insertionSort, ih]
    rfl

/-- Sorted lists that are permutations of each other and whose members admit
no nontrivial ties are equal. -/
theorem eq_of_perm_of_sorted_anti {α : Type} {r : α → α → Prop} :
    ∀ {l₁ l₂ : List α}, l₁.Perm l₂ → l₁.Sorted r → l₂.Sorted r →
      (∀ a ∈ l₁, ∀ b ∈ l₁, r a b → r b a → a = b) → l₁ = l₂ := by
  intro l₁
  induction l₁ with
  | nil =>
    intro l₂ hp _ _ _
    exact (List.Perm.eq_nil hp.symm).symm
  | cons a t₁ ih =>
    intro l₂ hp hs₁ hs₂ anti
    rcases l₂ with _ | ⟨b, t₂⟩
    · exact absurd (List.Perm.eq_nil hp) (List.cons_ne_nil a t₁)
    · have hab : a = b := by
        by_cases heq : a = b
        · exact heq
        · have ha2 : a ∈ b :: t₂ := hp.mem_iff.mp (List.mem_cons_self a t₁)
          have hb1 : b ∈ a :: t₁ := hp.mem_iff.mpr (List.mem_cons_self b t₂)
          have ha : a ∈ t₂ := by
            rcases List.mem_cons.mp ha2 with h | h
            · exact absurd h heq
            · exact h
          have hb : b ∈ t₁ := by
            rcases List.mem_cons.mp hb1 with h | h
            · exact absurd h.symm heq
            · exact h
          have hr1 : r b a := List.rel_of_sorted_cons hs₂ a ha
          have hr2 : r a b := List.rel_of_sorted_cons hs₁ b hb
          exact anti a (List.mem_cons_self a t₁) b (List.mem_cons_of_mem a hb) hr2 hr1
      subst hab
      rw [ih hp.cons_inv hs₁.of_cons hs₂.of_cons
        (fun x hx y hy => anti x (List.mem_cons_of_mem a hx) y (List.mem_cons_of_mem a hy))]

/-! ### The open-position emission as a function of the enumeration order -/

theorem opensOverKeys_all_open (m : SymbolLots) (prices : List (String × ℚ))
    (order : List String) : ∀ p ∈ opensOverKeys m prices order, p.Type' = "open" := by
  intro p hp
  rcases List.mem_filterMap.mp hp with ⟨s, _, hs⟩
  exact (mkOpenPos_fields prices _ p hs).1

theorem opensOverKeys_cons (m : SymbolLots) (prices : List (String × ℚ)) (s : String)
    (rest : List String) :
    opensOverKeys m prices (s :: rest) =
      match mkOpenPos prices (s, getLots m s) with
      | some p => p :: opensOverKeys m prices rest
      | none => opensOverKeys m prices rest := by
  rw [opensOverKeys, List.filterMap_cons]
  rcases mkOpenPos prices (s, getLots m s) with _ | p <;> rfl

theorem opensOverKeys_symbols_sublist (m : SymbolLots) (prices : List (String × ℚ))
    (order : List String) :
    ((opensOverKeys m prices order).map (·.Symbol)).Sublist order := by
  induction order with
  | nil => simp [opensOverKeys]
  | cons s rest ih =>
    rcases hs : mkOpenPos prices (s, getLots m s) with _ | p
    · rw [opensOverKeys_cons, hs]
      exact ih.cons s
    · rw [opensOverKeys_cons, hs, List.map_cons, (mkOpenPos_fields prices _ p hs).2]
      exact ih.cons₂ s

/-- Enumerating the canonical key list reproduces the association-list
iteration. -/
theorem opensOverKeys_keys (m : SymbolLots) (prices : List (String × ℚ))
    (hnd : (m.map Prod.fst).Nodup) :
    opensOverKeys m prices (m.map Prod.fst) = opensOf m prices := by
  induction m with
  | nil => rfl
  | cons e rest ih =>
    obtain ⟨k, v⟩ := e
    rw [List.map_cons, List.nodup_cons] at hnd
    rw [List.map_cons, opensOverKeys, List.filterMap_cons, opensOf_cons]
    have hk : getLots ((k, v) :: rest) k = v := by simp [getLots]
    have htail : (rest.map Prod.fst).filterMap
        (fun s => mkOpenPos prices (s, getLots ((k, v) :: rest) s)) =
        (rest.map Prod.fst).filterMap (fun s => mkOpenPos prices (s, getLots rest s)) := by
      refine List.filterMap_congr (fun s hs => ?_)
      have hks : ¬ k = s := fun h => hnd.1 (h ▸ hs)
      rw [getLots, if_neg hks]
    rw [hk]
    rcases mkOpenPos prices (k, v) with _ | p
    · show (rest.map Prod.fst).filterMap
          (fun s => mkOpenPos prices (s, getLots ((k, v) :: rest) s)) = opensOf rest prices
      rw [htail]
      exact ih hnd.2
    · show p :: (rest.map Prod.fst).filterMap
          (fun s => mkOpenPos prices (s, getLots ((k, v) :: rest) s)) = p :: opensOf rest prices
      rw [htail]
      exact congrArg (fun l => p :: l) (ih hnd.2)

theorem opensOverKeys_perm (m : SymbolLots) (prices : List (String × ℚ))
    (order : List String) (hnd : (m.map Prod.fst).Nodup)
    (hperm : order.Perm (m.map Prod.fst)) :
    (opensOverKeys m prices order).Perm (opensOf m prices) := by
  have h1 : (opensOverKeys m prices order).Perm (opensOverKeys m prices (m.map Prod.fst)) :=
    hperm.filterMap (fun s => mkOpenPos prices (s, getLots m s))
  rw [opensOverKeys_keys m prices hnd] at h1
  exact h1

/-- Comparator-tie antisymmetry on the emitted (pre-sort) list: an open and a
closed position never tie (their type ranks differ), open positions have
pairwise distinct symbols (one `symbolLots` binding per symbol), so a
nontrivial tie can only pair closed positions sharing symbol and open date. -/
theorem emitted_anti (txs : List StockTransaction) (prices : List (String × ℚ))
    (order : List String) (hord : order.Nodup)
    (hanti : ∀ a ∈ (runStockTxs txs).closed, ∀ b ∈ (runStockTxs txs).closed,
      a.Symbol = b.Symbol → a.OpenDate = b.OpenDate → a = b) :
    ∀ a ∈ (runStockTxs txs).closed ++ opensOverKeys (runStockTxs txs).lots prices order,
      ∀ b ∈ (runStockTxs txs).closed ++ opensOverKeys (runStockTxs txs).lots prices order,
        posLE a b → posLE b a → a = b := by
  intro a ha b hb hab hba
  have hca : ∀ p ∈ (runStockTxs txs).closed, p.Type' = "closed" :=
    closed_all_closed txs ⟨[], []⟩ (by simp)
  have hty : ∀ p ∈ (runStockTxs txs).closed ++ opensOverKeys (runStockTxs txs).lots prices order,
      p.Type' = "open" ∨ p.Type' = "closed" := by
    intro p hp
    rcases List.mem_append.mp hp with hp | hp
    · exact Or.inr (hca p hp)
    · exact Or.inl (opensOverKeys_all_open _ prices order p hp)
  have h1 : keyOf a ≤ keyOf b := (posLE_iff_keyLE a b (hty a ha) (hty b hb)).mp hab
  have h2 : keyOf b ≤ keyOf a := (posLE_iff_keyLE b a (hty b hb) (hty a ha)).mp hba
  have hk : keyOf a = keyOf b := le_antisymm h1 h2
  have hsym : a.Symbol = b.Symbol := keyOf_eq_symbol hk
  have hrank : posRank a = posRank b := keyOf_eq_rank hk
  rcases List.mem_append.mp ha with ha' | ha' <;> rcases List.mem_append.mp hb with hb' | hb'
  · exact hanti a ha' b hb' hsym (keyOf_eq_openDate hk)
  · have h3 : posRank a = 1 := by simp [posRank, hca a ha']
    have h4 : posRank b = 0 := by simp [posRank, opensOverKeys_all_open _ prices order b hb']
    rw [h3, h4] at hrank
    exact absurd hrank one_ne_zero
  · have h3 : posRank a = 0 := by simp [posRank, opensOverKeys_all_open _ prices order a ha']
    have h4 : posRank b = 1 := by simp [posRank, hca b hb']
    rw [h3, h4] at hrank
    exact absurd hrank zero_ne_one
  · exact List.inj_on_of_nodup_map
      (hord.sublist (opensOverKeys_symbols_sublist _ prices order)) ha' hb' hsym

/-- C9.  Determinism of the position aggregator up to the sort's unspecified
tie order: with the map-iteration order of the open-position emission and the
outcome of the unstable `sort.Slice` both left open, any two results computed
from equal transaction lists and equal price maps are permutations of each
other and of the canonical run — the multiset of emitted positions is a pure
function of the inputs, and each result is sorted by the source comparator —
and whenever no two distinct closed positions share both symbol and open date
(the only comparator ties the engine can emit), the two results are
identical, element for element. -/
theorem calc_positions_deterministic (txs : List StockTransaction)
    (prices : List (String × ℚ)) (order₁ order₂ : List String)
    (out₁ out₂ : List Position)
    (hp₁ : order₁.Perm (((runStockTxs txs).lots).map Prod.fst))
    (hp₂ : order₂.Perm (((runStockTxs txs).lots).map Prod.fst))
    (h₁ : calcAllPositionsRel txs prices order₁ out₁)
    (h₂ : calcAllPositionsRel txs prices order₂ out₂) :
    out₁.Perm out₂ ∧ out₁.Perm (CalculateAllPositions txs prices) ∧
    ((∀ a ∈ (runStockTxs txs).closed, ∀ b ∈ (runStockTxs txs).closed,
        a.Symbol = b.Symbol → a.OpenDate = b.OpenDate → a = b) →
      out₁ = out₂) := by
  have hnd : ((runStockTxs txs).lots.map Prod.fst).Nodup := by
    rw [show (runStockTxs txs).lots = txs.foldl stepLots [] from
      runStockTxs_lots_eq txs ⟨[], []⟩]
    exact nodup_keys_run txs [] (by simp)
  unfold calcAllPositionsRel sortSliceSpec at h₁ h₂
  obtain ⟨hperm₁, hsort₁⟩ := h₁
  obtain ⟨hperm₂, hsort₂⟩ := h₂
  have hbase₁ := List.Perm.append_left (runStockTxs txs).closed
    (opensOverKeys_perm (runStockTxs txs).lots prices order₁ hnd hp₁)
  have hbase₂ := List.Perm.append_left (runStockTxs txs).closed
    (opensOverKeys_perm (runStockTxs txs).lots prices order₂ hnd hp₂)
  have hcap : (CalculateAllPositions txs prices).Perm
      ((runStockTxs txs).closed ++ opensOf (runStockTxs txs).lots prices) := by
    rw [CalculateAllPositions]
    exact List.perm_insertionSort posLE _
  have hout₁ : out₁.Perm (CalculateAllPositions txs prices) :=
    (hperm₁.symm.trans hbase₁).trans hcap.symm
  have hout₂ : out₂.Perm (CalculateAllPositions txs prices) :=
    (hperm₂.symm.trans hbase₂).trans hcap.symm
  have h12 : out₁.Perm out₂ := hout₁.trans hout₂.symm
  refine ⟨h12, hout₁, fun hanti => ?_⟩
  have hord₁ : order₁.Nodup := hp₁.nodup_iff.mpr hnd
  refine eq_of_perm_of_sorted_anti h12 hsort₁ hsort₂ ?_
  intro a ha b hb hab hba
  exact emitted_anti txs prices order₁ hord₁ hanti
    a (hperm₁.mem_iff.mpr ha) b (hperm₁.mem_iff.mpr hb) hab hba

def exC9 : List StockTransaction :=
  [⟨"2025-01-01", "Buy", "B", 4, 10, 40, 0⟩,
   ⟨"2025-01-02", "Buy", "A", 2, 30, 60, 0⟩,
   ⟨"2025-01-03", "Sell", "B", 1, 12, 12, 0⟩]

/-- C9, instantiated: a concrete run, two different key enumerations and a
`sort.Slice`-compliant output for each discharge every hypothesis; this
input's closed positions admit no tie, so the outputs coincide. -/
theorem calc_positions_deterministic_witness :
    (CalculateAllPositions exC9 [("A", 31)]).Perm (CalculateAllPositions exC9 [("A", 31)]) ∧
    (CalculateAllPositions exC9 [("A", 31)]).Perm (CalculateAllPositions exC9 [("A", 31)]) ∧
    ((∀ a ∈ (runStockTxs exC9).closed, ∀ b ∈ (runStockTxs exC9).closed,
        a.Symbol = b.Symbol → a.OpenDate = b.OpenDate → a = b) →
      CalculateAllPositions exC9 [("A", 31)] = CalculateAllPositions exC9 [("A", 31)]) :=
  calc_positions_deterministic exC9 [("A", 31)] ["A", "B"] ["B", "A"]
    (CalculateAllPositions exC9 [("A", 31)]) (CalculateAllPositions exC9 [("A", 31)])
    (of_decide_eq_true (by with_unfolding_all rfl))
    (of_decide_eq_true (by with_unfolding_all rfl))
    (of_decide_eq_true (by with_unfolding_all rfl))
    (of_decide_eq_true (by with_unfolding_all rfl))

/-- Two Sells each closing part of the one Buy's lot: both closed positions
carry symbol "A", type "closed" and open date 2025-01-01 — a comparator tie
between distinct records (their close dates differ). -/
def exC9tie : List StockTransaction :=
  [⟨"2025-01-01", "Buy", "A", 10, 10, 100, 0⟩,
   ⟨"2025-01-02", "Sell", "A", 5, 12, 60, 0⟩,
   ⟨"2025-01-03", "Sell", "A", 5, 12, 60, 0⟩]

/-- One `sort.Slice`-compliant output on `exC9tie`: the emission order. -/
def outC9a : List Position := CalculateAllPositions exC9tie []

/-- Another compliant output on `exC9tie`: the two tied closed positions
swapped. -/
def outC9b : List Position := (CalculateAllPositions exC9tie []).reverse

/-- C9, refutation of the claim as stated: on `exC9tie`, with one and the
same input — and even one and the same map-iteration order — the
postcondition of the unstable `sort.Slice` admits two different output lists,
so the returned `Position` list is not determined element for element. -/
theorem calc_positions_order_counterexample :
    ["A"].Perm (((runStockTxs exC9tie).lots).map Prod.fst) ∧
    calcAllPositionsRel exC9tie [] ["A"] outC9a ∧
    calcAllPositionsRel exC9tie [] ["A"] outC9b ∧
    outC9a ≠ outC9b :=
  of_decide_eq_true (by with_unfolding_all rfl)

end OptionsPortfolio
